import Mathlib

/-
Verification of the "hide-elo" content script (src/hideElo.js, with one
handler from the later variant in src/unnamed/part_002).

Strings are modelled as `List Char`.  Each JavaScript regular expression is
embedded as an executable matcher over `List Char`.  Where the regex engine's
backtracking is deterministic (because adjacent tokens match disjoint
character sets, e.g. `\S*` followed by `\s+`), the matcher computes the unique
surviving candidate directly: a shorter greedy run would put a character of
the wrong class in front of the next token and fail immediately, so the
maximal run is the only one a backtracking engine can report.  The remaining
genuine choice points (optional groups such as `[123]?`, `\??`,
`(?:[A-Z]{2,}\s+)?`) are implemented with explicit fallback in the regex's
preference order.  DOM nodes are modelled by inductive types; a thrown
TypeError is modelled by an `Option` result of `none`.
-/

namespace HideElo

/-- JavaScript `\s` character class (ECMA-262 WhiteSpace ∪ LineTerminator). -/
def jsWs (c : Char) : Bool :=
  c == ' ' || c == '\t' || c == '\n' || c == '\u000B' || c == '\u000C' ||
  c == '\r' || c == '\u00A0' || c == '\u1680' ||
  ('\u2000' ≤ c && c ≤ '\u200A') ||
  c == '\u2028' || c == '\u2029' || c == '\u202F' || c == '\u205F' ||
  c == '\u3000' || c == '\uFEFF'

/-- JavaScript `.` (without the `s` flag): any character except a line terminator. -/
def jsDot (c : Char) : Bool :=
  !(c == '\n' || c == '\r' || c == '\u2028' || c == '\u2029')

/-- JavaScript `\w` character class. -/
def jsWordChar (c : Char) : Bool :=
  ('a' ≤ c && c ≤ 'z') || ('A' ≤ c && c ≤ 'Z') || c.isDigit || c == '_'

/-- ASCII uppercase, the `[A-Z]` class. -/
def upperAscii (c : Char) : Bool := 'A' ≤ c && c ≤ 'Z'

/-- `String.prototype.toUpperCase` restricted to the ASCII range reachable
here (the inputs it is applied to are `[nbrqk]` rank letters and `'a'..'h'`
file letters or the backtick produced by an index of -1). -/
def jsToUpper (c : Char) : Char :=
  if 'a' ≤ c && c ≤ 'z' then Char.ofNat (c.toNat - 32) else c

def listToUpper (l : List Char) : List Char := l.map jsToUpper

/-- `classList.add`: a DOMTokenList is a set, adding a present token is a no-op. -/
def classListAdd (cls : List String) (c : String) : List String :=
  if c ∈ cls then cls else cls ++ [c]

/-- `classList.remove`. -/
def classListRemove (cls : List String) (c : String) : List String :=
  cls.filter (fun x => !(x == c))

/-- Matching a literal: returns the rest of the input after the literal. -/
def expectLit (pat l : List Char) : Option (List Char) :=
  if pat.isPrefixOf l then some (l.drop pat.length) else none

-- ---------- Seek list (hideElo.js lines 89-99) ----------

/-- A table cell of a seek-list row: its class list and its text content. -/
structure Cell where
  classes : List String
  text : List Char
deriving DecidableEq

/-- Three consecutive decimal digits at the head of the input (`\d{3}`). -/
def threeDigitsAt : List Char → Bool
  | a :: b :: c :: _ => a.isDigit && b.isDigit && c.isDigit
  | _ => false

/-- `ratingRE` = `/[123]?\d{3}\??/` matched at one start position.  The
trailing `\??` always succeeds, so only `[123]?\d{3}` constrains the input;
the engine prefers taking the optional leading digit and falls back to the
empty alternative. -/
def ratingMatchAt (t : List Char) : Bool :=
  (match t with
   | c :: rest => (c == '1' || c == '2' || c == '3') && threeDigitsAt rest
   | [] => false) || threeDigitsAt t

/-- `ratingRE.test`: some start position matches. -/
def ratingTest (s : List Char) : Bool := s.tails.any ratingMatchAt

/-- One iteration of `hideRatingsInSeekList`: rows with at least 3 cells whose
third cell's text passes `ratingRE.test` get the `hide_elo` class on that
cell. -/
def hideSeekRow (row : List Cell) : List Cell :=
  match row with
  | c0 :: c1 :: c2 :: rest =>
    if ratingTest c2.text then
      c0 :: c1 :: { classes := classListAdd c2.classes "hide_elo", text := c2.text } :: rest
    else c0 :: c1 :: c2 :: rest
  | other => other

def hideRatingsInSeekList (rows : List (List Cell)) : List (List Cell) :=
  rows.map hideSeekRow

-- ---------- Left sidebox (hideElo.js lines 118-142) ----------

/-- A DOM child node of the player link: a text node, or an element (span)
with a class list; its text content is stored directly. -/
inductive PNode where
  | text (s : List Char)
  | span (classes : List String) (s : List Char)
deriving DecidableEq

def PNode.textContent : PNode → List Char
  | .text s => s
  | .span _ s => s

/-- Assigning `textContent` keeps the node kind and classes. -/
def PNode.withText : PNode → List Char → PNode
  | .text _, s => .text s
  | .span cl _, s => .span cl s

/-- `node.classList` — `undefined` (none) on a text node. -/
def PNode.classList? : PNode → Option (List String)
  | .text _ => none
  | .span cl _ => some cl

/-- `createSeparator()`: a span wrapping a single non-breaking space. -/
def separator : PNode := .span [] ['\u00A0']

/-- An `a.user_link` player link: its child nodes and its own class list. -/
structure Player where
  childNodes : List PNode
  classes : List String
deriving DecidableEq

/-- `\d{3}` as a parser consuming exactly three digits. -/
def threeDigits : List Char → Option (List Char × List Char)
  | a :: b :: c :: rest =>
    if a.isDigit && b.isDigit && c.isDigit then some ([a, b, c], rest) else none
  | _ => none

/-- `\??\)`: the engine prefers consuming a `?`; if the following `)` then
fails there is no other way to place the optional `?`, so the fallback is the
empty alternative followed by a literal `)`. -/
def qThenParen : List Char → Option (List Char × List Char)
  | '?' :: ')' :: rest => some (['?', ')'], rest)
  | ')' :: rest => some ([')'], rest)
  | _ => none

/-- The group `(\([123]?\d{3}\??\))`: a parenthesis, an optional leading
`[123]` (preferred present, with fallback to absent when the rest of the
group cannot complete), three digits, `\??\)`.  Returns the captured text and
the remaining input. -/
def ratingGroup : List Char → Option (List Char × List Char)
  | '(' :: rest =>
    let withLead : Option (List Char × List Char) :=
      match rest with
      | c :: rest2 =>
        if c == '1' || c == '2' || c == '3' then
          match threeDigits rest2 with
          | some (ds, r2) =>
            match qThenParen r2 with
            | some (qs, r3) => some ('(' :: c :: (ds ++ qs), r3)
            | none => none
          | none => none
        else none
      | [] => none
    match withLead with
    | some x => some x
    | none =>
      match threeDigits rest with
      | some (ds, r2) =>
        match qThenParen r2 with
        | some (qs, r3) => some ('(' :: (ds ++ qs), r3)
        | none => none
      | none => none
  | _ => none

/-- `leftSideboxNameRatingRE` = `/(\S*)\s+(\([123]?\d{3}\??\))/` matched at
one start position.  `\S*` and `\s+` match disjoint classes and the group
starts with the non-space `(`, so the only candidate a backtracking engine
can report takes the maximal `\S` run, then the entire (nonempty) whitespace
run. -/
def lsMatchAt (l : List Char) : Option (List Char × List Char) :=
  match (l.dropWhile (fun c => !jsWs c)).takeWhile jsWs with
  | [] => none
  | _ :: _ =>
    match ratingGroup ((l.dropWhile (fun c => !jsWs c)).dropWhile jsWs) with
    | some (g2, _) => some (l.takeWhile (fun c => !jsWs c), g2)
    | none => none

/-- `leftSideboxNameRatingRE.exec`: leftmost match; returns (match[1], match[2]). -/
def lsExec : List Char → Option (List Char × List Char)
  | [] => none
  | c :: rest =>
    match lsMatchAt (c :: rest) with
    | some m => some m
    | none => lsExec rest

/-- The body of `hideRatingsInLeftSidebox` for one player link.  `none`
models a thrown TypeError (empty child list: `firstChild` is null; a titled
link with one child: `childNodes[1]` is undefined — the separator appended
before the throw is not modelled, only the exception).  The DOM insertion
order follows the source: for a titled link a separator is inserted before
the name node unconditionally; on a regex match the name node's text is
replaced by the captured name, then the rating span and another separator
are inserted after the name node, and the link is classed `elo_hidden`. -/
def processPlayer (p : Player) : Option Player :=
  match p.childNodes with
  | [] => none
  | first :: others =>
    let titled : Bool :=
      match first.classList? with
      | some cl => decide ("title" ∈ cl)
      | none => false
    if titled then
      match others with
      | [] => none
      | nameNode :: rest =>
        match lsExec nameNode.textContent with
        | none => some { p with childNodes := first :: separator :: nameNode :: rest }
        | some (g1, g2) =>
          some { childNodes := first :: separator :: nameNode.withText g1 ::
                   separator :: PNode.span ["hide_elo"] g2 :: rest,
                 classes := classListAdd p.classes "elo_hidden" }
    else
      match lsExec first.textContent with
      | none => some p
      | some (g1, g2) =>
        some { childNodes := first.withText g1 :: separator ::
                 PNode.span ["hide_elo"] g2 :: others,
               classes := classListAdd p.classes "elo_hidden" }

/-- `hideRatingsInLeftSidebox` over a node list; a throw aborts the whole call. -/
def hideRatingsInLeftSidebox (players : List Player) : Option (List Player) :=
  players.mapM processPlayer

-- ---------- Page denylist and doTheThing (hideElo.js lines 29, 321-336) ----------

/-- `skipPageRE` = `^https?://lichess.org/training(/.*)?$` as a test.  The
optional `s` is forced (taking it can only fail where not taking it also
fails, since the following literal starts with `:`); `(/.*)?$` means the
remainder is empty or a `/` followed by non-line-terminator characters. -/
def skipPageTest (s : List Char) : Bool :=
  match expectLit ("http".toList) s with
  | none => false
  | some r0 =>
    let r1 := match r0 with
      | 's' :: t => t
      | r => r
    match expectLit ("://lichess.org/training".toList) r1 with
    | none => false
    | some [] => true
    | some ('/' :: t) => t.all jsDot
    | some _ => false

/-- The script's load-time constants consulted by `doTheThing`. -/
structure Env where
  enabled : Bool
  href : List Char
  originalTitle : List Char
  hiddenTitle : List Char
  originalPgn : List Char
  hiddenPgn : List Char
deriving DecidableEq

/-- The mutable page state `doTheThing` writes: the body class list, the
document title, and the text of the embedded PGN element when present. -/
structure PageState where
  bodyClasses : List String
  title : List Char
  pgnText : Option (List Char)
deriving DecidableEq

/-- `doTheThing` (hideElo.js lines 321-336). -/
def doTheThing (env : Env) (st : PageState) : PageState :=
  if env.enabled && !skipPageTest env.href then
    { bodyClasses := classListRemove st.bodyClasses "no_hide_elo",
      title := env.hiddenTitle,
      pgnText := st.pgnText.map (fun _ => env.hiddenPgn) }
  else
    { bodyClasses := classListAdd st.bodyClasses "no_hide_elo",
      title := env.originalTitle,
      pgnText := st.pgnText.map (fun _ => env.originalPgn) }

-- ---------- PGN rating tag lines (hideElo.js lines 55, 273-282) ----------

/-- The alternation `(WhiteElo|BlackElo|WhiteRatingDiff|BlackRatingDiff)` in
source order.  No alternative is a prefix of another (they diverge before
either ends), so at most one can match at a given position and no retry of a
later alternative after a downstream failure can succeed. -/
def tagAlt (l : List Char) : Option Nat :=
  if ("WhiteElo".toList).isPrefixOf l then some 8
  else if ("BlackElo".toList).isPrefixOf l then some 8
  else if ("WhiteRatingDiff".toList).isPrefixOf l then some 15
  else if ("BlackRatingDiff".toList).isPrefixOf l then some 15
  else none

/-- Does the input start with the literal `]` `\n`? -/
def startsRBNL : List Char → Bool
  | ']' :: '\n' :: _ => true
  | _ => false

/-- Greedy search for the largest `k` (at most the given bound) such that the
input at offset `k` starts with `]` `\n` — the backtracking of `.*\]\n` from
the longest `.` run downwards. -/
def greedyDown (l : List Char) : Nat → Option Nat
  | 0 => if startsRBNL l then some 0 else none
  | k + 1 =>
    if startsRBNL (l.drop (k + 1)) then some (k + 1) else greedyDown l k

/-- After the tag name: the word boundary check (`\b` after a word character
requires a non-word character or the end of the input), then `.*` ranging
over the maximal run of non-line-terminator characters and backtracking to
the last position followed by `]` `\n`; returns the total match length for
tag length `t`. -/
def ratingTagTail (t : Nat) (after : List Char) : Option Nat :=
  let bOk : Bool := match after with
    | [] => true
    | a :: _ => !jsWordChar a
  if bOk then
    match greedyDown after (after.takeWhile jsDot).length with
    | some k => some (1 + t + k + 2)
    | none => none
  else none

/-- The part of the match after the opening `[`. -/
def ratingTagCore (u : List Char) : Option Nat :=
  match tagAlt u with
  | some t => ratingTagTail t (u.drop t)
  | none => none

/-- `pgnRatingsRE` = `/\[(WhiteElo|BlackElo|WhiteRatingDiff|BlackRatingDiff)\b.*\]\n/`
matched at one start position; returns the total match length. -/
def ratingTagMatchLen (l : List Char) : Option Nat :=
  match l with
  | c :: u => if c == '[' then ratingTagCore u else none
  | [] => none

/-- `s.replace(pgnRatingsRE, '')` with the `g` flag: scan left to right,
delete each non-overlapping match, continue after it. -/
def stripPgnRatings : List Char → List Char
  | [] => []
  | c :: rest =>
    match ratingTagMatchLen (c :: rest) with
    | some n => stripPgnRatings (rest.drop (n - 1))
    | none => c :: stripPgnRatings rest
termination_by l => l.length
decreasing_by
  · simp only [List.length_cons, List.length_drop]; omega
  · simp

/-- Join lines, terminating each with a newline. -/
def unlines (ls : List (List Char)) : List Char :=
  ls.foldr (fun l acc => l ++ '\n' :: acc) []

/-- A canonical rating tag line (without its newline): `[`, one of the four
tag names, a body of `.`-matchable characters starting with a non-word
character, ending in `]`.  On such a line the regex match consumes exactly
the line and its newline. -/
def isRatingLine (l : List Char) : Bool :=
  match l with
  | c :: u =>
    (c == '[') &&
    (match tagAlt u with
     | some t =>
       let after := u.drop t
       (match after with
        | [] => false
        | a :: _ => !jsWordChar a) &&
       after.all jsDot && (after.getLast? == some ']')
     | none => false)
  | [] => false

/-- A line on which no match of `pgnRatingsRE` can start: no `[` immediately
followed by one of the four tag names. -/
def safeLine (l : List Char) : Bool :=
  l.tails.all fun t =>
    match t with
    | c :: u => !(c == '[') || (tagAlt u == none)
    | [] => true

-- ---------- Mini-game tooltip handlers ----------

/-- `childNodes[i].remove()`: `none` (a thrown TypeError) when there is no
child at index `i`, since `undefined.remove()` throws. -/
def jsRemoveChildAt (l : List PNode) (i : Int) : Option (List PNode) :=
  if 0 ≤ i && i < (l.length : Int) then some (l.eraseIdx i.toNat) else none

/-- `hideRatingsInMiniGame` (hideElo.js lines 190-203) applied to the query
results for the left and right player containers (`none` = not found, in
which case that side is skipped).  The left container loses its last child
(`childNodes[length - 1]`), the right container the child at index 2. -/
def hideRatingsInMiniGame (left right : Option (List PNode)) :
    Option (Option (List PNode) × Option (List PNode)) := do
  let newLeft ← match left with
    | none => pure none
    | some lcs => (jsRemoveChildAt lcs ((lcs.length : Int) - 1)).map some
  let newRight ← match right with
    | none => pure none
    | some rcs => (jsRemoveChildAt rcs 2).map some
  pure (newLeft, newRight)

/-- `hideRatingsInMiniGameLegend` (src/unnamed/part_002 lines 182-192): only
acts when exactly two `span.user-link` players are found; removes the last
child of the first and the child at index 2 of the second. -/
def hideRatingsInMiniGameLegend (players : List (List PNode)) :
    Option (List (List PNode)) :=
  match players with
  | [p0, p1] => do
    let q0 ← jsRemoveChildAt p0 ((p0.length : Int) - 1)
    let q1 ← jsRemoveChildAt p1 2
    pure [q0, q1]
  | ps => some ps

-- ---------- TV title (hideElo.js lines 32, 50-52, 209-216) ----------

/-- `\s+` when the following token begins with a non-space character: the
greedy run is forced to be the whole (nonempty) whitespace run. -/
def parseWsRun (l : List Char) : Option (List Char × List Char) :=
  match l.takeWhile jsWs with
  | [] => none
  | _ :: _ => some (l.takeWhile jsWs, l.dropWhile jsWs)

/-- `\S+` when the following token is `\s+`: the maximal nonempty run of
non-space characters. -/
def parseNonWsRun (l : List Char) : Option (List Char × List Char) :=
  match l.takeWhile (fun c => !jsWs c) with
  | [] => none
  | _ :: _ =>
    some (l.takeWhile (fun c => !jsWs c), l.dropWhile (fun c => !jsWs c))

/-- `[A-Z]{2,}` followed by `\s+`: the maximal uppercase run, of length at
least two (a shorter run would face an uppercase, non-space character). -/
def parseUpperRun (l : List Char) : Option (List Char × List Char) :=
  if (l.takeWhile upperAscii).length < 2 then none
  else some (l.takeWhile upperAscii, l.drop (l.takeWhile upperAscii).length)

/-- `titleNameRating` = `((?:[A-Z]{2,}\s+)?\S+)\s+(\([123]?\d{3}\??\))` for a
fixed choice of the optional title branch.  Group 1 keeps the title and its
trailing whitespace when the branch is taken. -/
def parseTNR (withTitle : Bool) (l : List Char) :
    Option (List Char × List Char × List Char) :=
  if withTitle then
    match parseUpperRun l with
    | none => none
    | some (u, r1) =>
      match parseWsRun r1 with
      | none => none
      | some (w, r2) =>
        match parseNonWsRun r2 with
        | none => none
        | some (n, r3) =>
          match parseWsRun r3 with
          | none => none
          | some (_, r4) =>
            match ratingGroup r4 with
            | some (g2, r5) => some (u ++ w ++ n, g2, r5)
            | none => none
  else
    match parseNonWsRun l with
    | none => none
    | some (n, r3) =>
      match parseWsRun r3 with
      | none => none
      | some (_, r4) =>
        match ratingGroup r4 with
        | some (g2, r5) => some (n, g2, r5)
        | none => none

/-- The groups returned by `tvTitleRE.exec`: match[1], match[2], match[3],
match[4], match[5]. -/
structure TvGroups where
  g1 : List Char
  g2 : List Char
  g3 : List Char
  g4 : List Char
  g5 : List Char
deriving DecidableEq

/-- The part of `tvTitleRE` after the second `titleNameRating`:
`\s+(.*)` — the whitespace run, then group 5 takes the maximal run of
non-line-terminator characters (nothing follows, so no backtracking). -/
def tvTail2 (g1 g2 g3 g4 : List Char) (l : List Char) : Option TvGroups :=
  match parseWsRun l with
  | none => none
  | some (_, r) => some ⟨g1, g2, g3, g4, r.takeWhile jsDot⟩

/-- The part of `tvTitleRE` after the first `titleNameRating`:
`\s+-\s+`, the second `titleNameRating` (title branch preferred, with
fallback when the rest of the pattern fails), then `tvTail2`. -/
def tvTail1 (g1 g2 : List Char) (l : List Char) : Option TvGroups :=
  match parseWsRun l with
  | none => none
  | some (_, r1) =>
    match r1 with
    | c :: r2 =>
      if c == '-' then
        match parseWsRun r2 with
        | none => none
        | some (_, r2b) =>
          (match parseTNR true r2b with
           | some (g3, g4, r3) => tvTail2 g1 g2 g3 g4 r3
           | none => none) <|>
          (match parseTNR false r2b with
           | some (g3, g4, r3) => tvTail2 g1 g2 g3 g4 r3
           | none => none)
      else none
    | [] => none

/-- `tvTitleRE` matched at one start position: first `titleNameRating` with
the optional title branch preferred, falling back when the remainder of the
pattern fails with the branch taken. -/
def tvMatchAt (l : List Char) : Option TvGroups :=
  (match parseTNR true l with
   | some (g1, g2, r1) => tvTail1 g1 g2 r1
   | none => none) <|>
  (match parseTNR false l with
   | some (g1, g2, r1) => tvTail1 g1 g2 r1
   | none => none)

/-- `tvTitleRE.exec`: leftmost match. -/
def tvTitleExec : List Char → Option TvGroups
  | [] => none
  | c :: rest =>
    match tvMatchAt (c :: rest) with
    | some m => some m
    | none => tvTitleExec rest

/-- `tvTitlePageRE` = `/.*\/tv$/` as a test: `.*` is unanchored and may be
empty, so the test holds exactly when the string ends with `/tv`. -/
def tvTitlePageTest (s : List Char) : Bool :=
  ("/tv".toList).isSuffixOf s

/-- The load-time computation of `hiddenTitle` (hideElo.js lines 209-216):
only on a page whose URL ends in `/tv` and whose title matches `tvTitleRE`
is the stripped title `match[1] + ' - ' + match[3] + ' ' + match[5]`
retained; otherwise the hidden title is the original title. -/
def computeHiddenTitle (href title : List Char) : List Char :=
  if tvTitlePageTest href then
    match tvTitleExec title with
    | some m => m.g1 ++ ' ' :: '-' :: ' ' :: m.g3 ++ ' ' :: m.g5
    | none => title
  else title

-- ---------- FEN → Shredder-FEN (hideElo.js lines 58, 61, 253-269) ----------

def nbrqkClass (c : Char) : Bool :=
  c == 'n' || c == 'b' || c == 'r' || c == 'q' || c == 'k'

def nbrqkUpperClass (c : Char) : Bool :=
  c == 'N' || c == 'B' || c == 'R' || c == 'Q' || c == 'K'

/-- Exactly `n` characters of class `p` (`[class]{n}`). -/
def takeClassN (p : Char → Bool) : Nat → List Char → Option (List Char × List Char)
  | 0, l => some ([], l)
  | n + 1, c :: l =>
    if p c then
      match takeClassN p n l with
      | some (a, r) => some (c :: a, r)
      | none => none
    else none
  | _ + 1, [] => none

/-- The fixed middle ranks of `fenRE`: `\/p{8}\/(?:8\/){4}P{8}\/`. -/
def fenMid : List Char := "/pppppppp/8/8/8/8/PPPPPPPP/".toList

/-- Captured pieces of a `fenRE` match.  `g2` is the black back rank
(match[2]), `g3` the white back rank (match[3]); `ws1`, `turn`, `ws2` the
whitespace runs and side-to-move inside match[1]. -/
structure FenM where
  g2 : List Char
  g3 : List Char
  ws1 : List Char
  turn : Char
  ws2 : List Char
deriving DecidableEq

/-- match[1] of `fenRE`. -/
def fenG1 (m : FenM) : List Char :=
  m.g2 ++ fenMid ++ m.g3 ++ m.ws1 ++ m.turn :: m.ws2

/-- `fenRE` matched at one start position.  Every greedy run (`\s*` before
the quote, `\s+` around the side-to-move letter) is forced because the next
token begins with a non-space character. -/
def fenMatchAt (l : List Char) : Option (FenM × List Char) :=
  match expectLit ("[FEN".toList) l with
  | none => none
  | some l1 =>
    let l2 := l1.dropWhile jsWs
    match expectLit ['"'] l2 with
    | none => none
    | some l3 =>
      match takeClassN nbrqkClass 8 l3 with
      | none => none
      | some (g2, l4) =>
        match expectLit fenMid l4 with
        | none => none
        | some l5 =>
          match takeClassN nbrqkUpperClass 8 l5 with
          | none => none
          | some (g3, l6) =>
            match parseWsRun l6 with
            | none => none
            | some (ws1, l7) =>
              match l7 with
              | c :: l8 =>
                if c == 'w' || c == 'b' then
                  match parseWsRun l8 with
                  | none => none
                  | some (ws2, l9) =>
                    match expectLit ("KQkq - 0 1\"]\n".toList) l9 with
                    | none => none
                    | some post => some (⟨g2, g3, ws1, c, ws2⟩, post)
                else none
              | [] => none

/-- `fenRE.exec` / first match of `pgn.replace(fenRE, …)`: leftmost match,
returning the text before the match, the captures, and the text after. -/
def fenExec : List Char → Option (List Char × FenM × List Char)
  | [] => none
  | c :: rest =>
    match fenMatchAt (c :: rest) with
    | some (m, post) => some ([], m, post)
    | none =>
      match fenExec rest with
      | some (pre, m, post) => some (c :: pre, m, post)
      | none => none

/-- Index of the first occurrence of `c`, if any. -/
def jsIndexOfAux (c : Char) : List Char → Option Nat
  | [] => none
  | x :: xs => if x == c then some 0 else (jsIndexOfAux c xs).map (fun n => n + 1)

/-- `String.prototype.indexOf(c, start)` returning -1 when absent. -/
def jsIndexOf (l : List Char) (c : Char) (start : Nat) : Int :=
  match jsIndexOfAux c (l.drop start) with
  | some k => ((start + k : Nat) : Int)
  | none => -1

/-- `doConvertFen` (hideElo.js lines 260-269).  On a match whose black back
rank uppercases to the white back rank, the `KQkq` castling field is replaced
by `rookFiles.toUpperCase() + rookFiles` where `rookFiles` is built by
`String.fromCharCode` from `'a' + index`: the first character uses the index
of the second `r` of the black rank, the second the index of the first `r`
(an absent rook gives index -1 and hence the backtick, code point 96). -/
def doConvertFen (pgn : List Char) : List Char :=
  match fenExec pgn with
  | none => pgn
  | some (pre, m, post) =>
    if listToUpper m.g2 = m.g3 then
      let leftRookBlack : Int := jsIndexOf m.g2 'r' 0
      let rightRookBlack : Int := jsIndexOf m.g2 'r' (leftRookBlack + 1).toNat
      let rookFiles : List Char :=
        [Char.ofNat (97 + rightRookBlack).toNat, Char.ofNat (97 + leftRookBlack).toNat]
      pre ++ ("[FEN \"".toList) ++ fenG1 m ++ listToUpper rookFiles ++ rookFiles ++
        (" - 0 1\"]\n".toList) ++ post
    else pgn

/-- `chess960RE` = `/\[Variant\s*"Chess960"\]/` as a test; the `\s*` run is
forced maximal by the following quote. -/
def chess960Test (s : List Char) : Bool :=
  s.tails.any fun t =>
    match expectLit ("[Variant".toList) t with
    | none => false
    | some r => ("\"Chess960\"]".toList).isPrefixOf (r.dropWhile jsWs)

/-- `convertFenIfChess960` (hideElo.js lines 253-258): converts both retained
PGN copies only when the hidden copy carries the Chess960 variant tag. -/
def convertFenIfChess960 (hiddenPgn originalPgn : List Char) :
    List Char × List Char :=
  if chess960Test hiddenPgn then (doConvertFen hiddenPgn, doConvertFen originalPgn)
  else (hiddenPgn, originalPgn)

-- ---------- Linked PGN download (hideElo.js lines 286-317) ----------

/-- `interceptPgnDownload`: the boolean is the handler's return value (true
lets the browser follow the link); the optional string is the content of the
synthetic download served from the fetched response text when the default
navigation is suppressed. -/
def interceptPgnDownload (enabled convertFen : Bool) (responseText : List Char) :
    Bool × Option (List Char) :=
  if !enabled && !convertFen then (true, none)
  else
    let base := if enabled then stripPgnRatings responseText else responseText
    let final := if convertFen then doConvertFen base else base
    (false, some final)

-- ---------- Canonical input builders used in theorem statements ----------

/-- A rating token in the shape of `[123]?\d{3}\??`: optional leading
`1`/`2`/`3`, three digits, optional question mark. -/
def mkRating (lead : Option Char) (d1 d2 d3 : Char) (q : Bool) : List Char :=
  lead.toList ++ [d1, d2, d3] ++ (if q then ['?'] else [])

/-- `name (rating)`: the text content of an unprocessed sidebar player link. -/
def mkNameRating (name rating : List Char) : List Char :=
  name ++ ' ' :: '(' :: (rating ++ [')'])

/-- A two-player page title `A (r1) - B (r2) site`. -/
def mkTvTitle (a r1 b r2 site : List Char) : List Char :=
  a ++ ' ' :: '(' :: (r1 ++ ')' :: ' ' :: '-' :: ' ' ::
    (b ++ ' ' :: '(' :: (r2 ++ ')' :: ' ' :: site)))

/-- An initial-position FEN tag of the shape matched by `fenRE`, with single
spaces for its whitespace runs. -/
def mkFenTag (br wr : List Char) (t : Char) : List Char :=
  ("[FEN \"".toList) ++ br ++ fenMid ++ wr ++ ' ' :: t :: ' ' :: ("KQkq - 0 1\"]\n".toList)

/-- The same tag after `doConvertFen` replaced `KQkq` by the rook files
`f2 f1` (uppercased pair first). -/
def mkFenTagConverted (br wr : List Char) (t : Char) (f1 f2 : Char) : List Char :=
  ("[FEN \"".toList) ++ br ++ fenMid ++ wr ++ ' ' :: t :: ' ' ::
    jsToUpper f2 :: jsToUpper f1 :: f2 :: f1 :: (" - 0 1\"]\n".toList)

-- ---------- Generic list lemmas ----------

theorem takeWhile_all {α : Type} (p : α → Bool) {xs : List α}
    (h : ∀ a ∈ xs, p a = true) : xs.takeWhile p = xs := by
  induction xs with
  | nil => rfl
  | cons a as ih =>
    have ha : p a = true := h a (by simp)
    simp only [List.takeWhile_cons, ha, if_true]
    rw [ih (fun b hb => h b (by simp [hb]))]

theorem dropWhile_all {α : Type} (p : α → Bool) {xs : List α}
    (h : ∀ a ∈ xs, p a = true) : xs.dropWhile p = [] := by
  induction xs with
  | nil => rfl
  | cons a as ih =>
    have ha : p a = true := h a (by simp)
    simp only [List.dropWhile_cons, ha, if_true]
    exact ih (fun b hb => h b (by simp [hb]))

theorem takeWhile_append_stop {α : Type} (p : α → Bool) (xs : List α) (y : α)
    (ys : List α) (h : ∀ a ∈ xs, p a = true) (hy : p y = false) :
    (xs ++ y :: ys).takeWhile p = xs := by
  induction xs with
  | nil => simp [List.takeWhile_cons, hy]
  | cons a as ih =>
    have ha : p a = true := h a (by simp)
    simp only [List.cons_append, List.takeWhile_cons, ha, if_true]
    rw [ih (fun b hb => h b (by simp [hb]))]

theorem dropWhile_append_stop {α : Type} (p : α → Bool) (xs : List α) (y : α)
    (ys : List α) (h : ∀ a ∈ xs, p a = true) (hy : p y = false) :
    (xs ++ y :: ys).dropWhile p = y :: ys := by
  induction xs with
  | nil => simp [List.dropWhile_cons, hy]
  | cons a as ih =>
    have ha : p a = true := h a (by simp)
    simp only [List.cons_append, List.dropWhile_cons, ha, if_true]
    exact ih (fun b hb => h b (by simp [hb]))

theorem isPrefixOf_self_append {xs ys : List Char} :
    xs.isPrefixOf (xs ++ ys) = true := by
  induction xs with
  | nil => simp [List.isPrefixOf]
  | cons a as ih => simp [List.isPrefixOf, ih]

theorem expectLit_self_append (pat rest : List Char) :
    expectLit pat (pat ++ rest) = some rest := by
  unfold expectLit
  rw [if_pos isPrefixOf_self_append]
  simp [List.drop_left]

theorem mem_classListAdd (cls : List String) (c : String) :
    c ∈ classListAdd cls c := by
  unfold classListAdd
  split
  · assumption
  · simp

theorem classListAdd_idem (cls : List String) (c : String) :
    classListAdd (classListAdd cls c) c = classListAdd cls c := by
  unfold classListAdd
  split
  · simp_all
  · simp

theorem hideSeekRow_cons (c0 c1 c2 : Cell) (rest : List Cell) :
    hideSeekRow (c0 :: c1 :: c2 :: rest) =
      if ratingTest c2.text then
        c0 :: c1 :: ⟨classListAdd c2.classes "hide_elo", c2.text⟩ :: rest
      else c0 :: c1 :: c2 :: rest := rfl

theorem takeWhile_cons_true {p : Char → Bool} {a : Char} (l : List Char)
    (h : p a = true) : List.takeWhile p (a :: l) = a :: List.takeWhile p l := by
  simp [List.takeWhile_cons, h]

theorem takeWhile_cons_false {p : Char → Bool} {a : Char} (l : List Char)
    (h : p a = false) : List.takeWhile p (a :: l) = [] := by
  simp [List.takeWhile_cons, h]

theorem dropWhile_cons_true {p : Char → Bool} {a : Char} (l : List Char)
    (h : p a = true) : List.dropWhile p (a :: l) = List.dropWhile p l := by
  simp [List.dropWhile_cons, h]

theorem dropWhile_cons_false {p : Char → Bool} {a : Char} (l : List Char)
    (h : p a = false) : List.dropWhile p (a :: l) = a :: l := by
  simp [List.dropWhile_cons, h]

theorem lsExec_cons (c : Char) (rest : List Char) :
    lsExec (c :: rest) =
      match lsMatchAt (c :: rest) with
      | some m => some m
      | none => lsExec rest := rfl

-- ---------- Claim C2 ----------

/-- C2: on every page whose URL matches the training-page denylist pattern
`skipPageRE`, and for every value of the enabled flag, `doTheThing` forces
the revealed state: the body carries `no_hide_elo`, the document title is the
original title, and the embedded PGN panel (when present) shows the original
PGN text. -/
theorem doTheThing_denylisted_forces_revealed (env : Env) (st : PageState)
    (hskip : skipPageTest env.href = true) :
    "no_hide_elo" ∈ (doTheThing env st).bodyClasses ∧
    (doTheThing env st).title = env.originalTitle ∧
    (doTheThing env st).pgnText = st.pgnText.map (fun _ => env.originalPgn) := by
  unfold doTheThing
  rw [hskip]
  simp only [Bool.not_true, Bool.and_false, if_false]
  exact ⟨mem_classListAdd _ _, rfl, rfl⟩

/-- Witness for C2 on a concrete training-page URL with concealment enabled. -/
theorem doTheThing_denylisted_forces_revealed_witness :
    "no_hide_elo" ∈ (doTheThing
      ⟨true, ("https://lichess.org/training/frF8".toList), ("orig title".toList),
        ("hidden title".toList), ("orig pgn".toList), ("hidden pgn".toList)⟩
      ⟨[], ("hidden title".toList), some ("hidden pgn".toList)⟩).bodyClasses ∧
    (doTheThing
      ⟨true, ("https://lichess.org/training/frF8".toList), ("orig title".toList),
        ("hidden title".toList), ("orig pgn".toList), ("hidden pgn".toList)⟩
      ⟨[], ("hidden title".toList), some ("hidden pgn".toList)⟩).title =
      ("orig title".toList) ∧
    (doTheThing
      ⟨true, ("https://lichess.org/training/frF8".toList), ("orig title".toList),
        ("hidden title".toList), ("orig pgn".toList), ("hidden pgn".toList)⟩
      ⟨[], ("hidden title".toList), some ("hidden pgn".toList)⟩).pgnText =
      (some ("hidden pgn".toList)).map (fun _ => ("orig pgn".toList)) :=
  doTheThing_denylisted_forces_revealed _ _ (by decide)

-- ---------- Claim C6 ----------

/-- C6 (amended): `hideRatingsInSeekList` marks exactly the rows with at
least three cells whose third cell text passes the rating test, by adding
`hide_elo` to the third cell and leaving every text and every other cell
unchanged; all other rows are untouched.  The marking itself does not depend
on the concealment flag: when concealment is disabled the marker class stays
on the processed row, and it is the body-level `no_hide_elo` class (set by
`doTheThing`) that keeps the rating visible. -/
theorem hideRatingsInSeekList_marks_exactly :
    (∀ (c0 c1 c2 : Cell) (rest : List Cell), ratingTest c2.text = true →
       hideSeekRow (c0 :: c1 :: c2 :: rest) =
         c0 :: c1 :: ⟨classListAdd c2.classes "hide_elo", c2.text⟩ :: rest ∧
       "hide_elo" ∈ classListAdd c2.classes "hide_elo") ∧
    (∀ (c0 c1 c2 : Cell) (rest : List Cell), ratingTest c2.text = false →
       hideSeekRow (c0 :: c1 :: c2 :: rest) = c0 :: c1 :: c2 :: rest) ∧
    (∀ row : List Cell, row.length < 3 → hideSeekRow row = row) ∧
    (∀ (env : Env) (st : PageState), env.enabled = false →
       "no_hide_elo" ∈ (doTheThing env st).bodyClasses) := by
  refine ⟨?_, ?_, ?_, ?_⟩
  · intro c0 c1 c2 rest h
    rw [hideSeekRow_cons, if_pos h]
    exact ⟨rfl, mem_classListAdd _ _⟩
  · intro c0 c1 c2 rest h
    rw [hideSeekRow_cons, if_neg (by simp [h])]
  · intro row h
    simp only [hideSeekRow]
    match row, h with
    | [], _ => rfl
    | [a], _ => rfl
    | [a, b], _ => rfl
    | a :: b :: c :: r, h => simp at h; omega
  · intro env st h
    unfold doTheThing
    rw [h]
    simp only [Bool.false_and, if_false]
    exact mem_classListAdd _ _

/-- Witness for C6 at the spec's example row. -/
theorem hideRatingsInSeekList_marks_exactly_witness :
    hideSeekRow [⟨[], "#".toList⟩, ⟨[], "name".toList⟩, ⟨[], "1500?".toList⟩] =
      [⟨[], "#".toList⟩, ⟨[], "name".toList⟩,
        ⟨classListAdd [] "hide_elo", "1500?".toList⟩] ∧
    "hide_elo" ∈ classListAdd ([] : List String) "hide_elo" :=
  hideRatingsInSeekList_marks_exactly.1 _ _ _ [] (by decide)

/-- C6 counterexample: the claim says the hide-marker is absent from a
processed row when concealment is disabled, but `hideRatingsInSeekList` does
not consult the flag at all — the processed example row carries `hide_elo`
unconditionally (visibility is instead controlled by the body class). -/
theorem hideRatingsInSeekList_marker_not_flag_dependent :
    hideSeekRow [⟨[], "#".toList⟩, ⟨[], "name".toList⟩, ⟨[], "1500?".toList⟩] =
      [⟨[], "#".toList⟩, ⟨[], "name".toList⟩, ⟨["hide_elo"], "1500?".toList⟩] ∧
    "hide_elo" ∈
      (hideSeekRow [⟨[], "#".toList⟩, ⟨[], "name".toList⟩,
        ⟨[], "1500?".toList⟩]).foldr (fun c acc => c.classes ++ acc) [] := by
  constructor
  · decide
  · decide

-- ---------- Claim C1 ----------

/-- On input without any whitespace character, `\s+` can never match, so
`leftSideboxNameRatingRE` fails at every start position. -/
theorem lsExec_eq_none_of_noWs {s : List Char} (h : ∀ c ∈ s, jsWs c = false) :
    lsExec s = none := by
  induction s with
  | nil => rfl
  | cons c rest ih =>
    have h1 : (c :: rest).dropWhile (fun x => !jsWs x) = [] :=
      dropWhile_all _ (by intro a ha; simp [h a ha])
    have hmatch : lsMatchAt (c :: rest) = none := by
      unfold lsMatchAt
      rw [h1]
      rfl
    rw [lsExec_cons, hmatch]
    exact ih (fun a ha => h a (by simp [ha]))

/-- On input consisting only of whitespace, the rating group's opening
parenthesis can never be found, so `leftSideboxNameRatingRE` fails at every
start position. -/
theorem lsExec_eq_none_of_allWs {s : List Char} (h : ∀ c ∈ s, jsWs c = true) :
    lsExec s = none := by
  induction s with
  | nil => rfl
  | cons c rest ih =>
    have hc : jsWs c = true := h c (by simp)
    have h1 : (c :: rest).dropWhile (fun x => !jsWs x) = c :: rest := by
      rw [List.dropWhile_cons]
      simp [hc]
    have h2 : (c :: rest).dropWhile jsWs = [] :=
      dropWhile_all jsWs (fun a ha => h a ha)
    have hmatch : lsMatchAt (c :: rest) = none := by
      unfold lsMatchAt
      rw [h1, h2]
      cases htw : List.takeWhile jsWs (c :: rest) with
      | nil => rfl
      | cons a as => rfl
    rw [lsExec_cons, hmatch]
    exact ih (fun a ha => h a (by simp [ha]))

/-- C1 (amended): re-running a region scan on already-processed content is
harmless for the seek list (fully idempotent) and for a sidebar player link
whose first child is not a title element (the rescan is a no-op, since the
name left behind by the first pass contains no whitespace).  For a link whose
first child IS a title element, a second call inserts exactly one additional
separator span before the existing one — it adds no rating node, no class,
and does not alter any existing node's text, but it does grow the link by one
non-breaking-space separator (this is the one deviation from the claim). -/
theorem rescan_idempotence_amended :
    (∀ rows : List (List Cell),
       hideRatingsInSeekList (hideRatingsInSeekList rows) = hideRatingsInSeekList rows) ∧
    (∀ (n : List Char) (rest : List PNode) (cls : List String),
       (∀ c ∈ n, jsWs c = false) →
       processPlayer ⟨PNode.text n :: rest, cls⟩ = some ⟨PNode.text n :: rest, cls⟩) ∧
    (∀ (tcl : List String) (ts : List Char) (b : PNode) (rest : List PNode)
       (cls : List String),
       "title" ∈ tcl → (∀ c ∈ b.textContent, jsWs c = true) →
       processPlayer ⟨PNode.span tcl ts :: b :: rest, cls⟩ =
         some ⟨PNode.span tcl ts :: separator :: b :: rest, cls⟩) := by
  refine ⟨?_, ?_, ?_⟩
  · intro rows
    unfold hideRatingsInSeekList
    rw [List.map_map]
    apply List.map_congr_left
    intro row _
    show hideSeekRow (hideSeekRow row) = hideSeekRow row
    match row with
    | [] => rfl
    | [a] => rfl
    | [a, b] => rfl
    | c0 :: c1 :: c2 :: rest =>
      by_cases h : ratingTest c2.text = true
      · rw [hideSeekRow_cons, if_pos h, hideSeekRow_cons]
        simp only [if_pos h, classListAdd_idem]
      · rw [hideSeekRow_cons, if_neg h, hideSeekRow_cons, if_neg h]
  · intro n rest cls h
    simp only [processPlayer, PNode.classList?]
    rw [if_neg (by simp)]
    rw [show PNode.textContent (PNode.text n) = n from rfl,
      lsExec_eq_none_of_noWs h]
  · intro tcl ts b rest cls htitle hws
    simp only [processPlayer, PNode.classList?]
    rw [if_pos (by simp [htitle])]
    rw [lsExec_eq_none_of_allWs hws]

/-- Witness for C1 applying all three parts at already-processed content:
a marked seek-list row, a processed untitled link, a processed titled link. -/
theorem rescan_idempotence_amended_witness :
    hideRatingsInSeekList (hideRatingsInSeekList
        [[⟨[], "#".toList⟩, ⟨[], "name".toList⟩, ⟨["hide_elo"], "1500?".toList⟩]]) =
      hideRatingsInSeekList
        [[⟨[], "#".toList⟩, ⟨[], "name".toList⟩, ⟨["hide_elo"], "1500?".toList⟩]] ∧
    processPlayer ⟨[PNode.text "foobar".toList, separator,
        PNode.span ["hide_elo"] "(1500)".toList], ["elo_hidden"]⟩ =
      some ⟨[PNode.text "foobar".toList, separator,
        PNode.span ["hide_elo"] "(1500)".toList], ["elo_hidden"]⟩ ∧
    processPlayer ⟨[PNode.span ["title"] "IM".toList, separator,
        PNode.text "foobar".toList, separator,
        PNode.span ["hide_elo"] "(2400)".toList], ["elo_hidden"]⟩ =
      some ⟨[PNode.span ["title"] "IM".toList, separator, separator,
        PNode.text "foobar".toList, separator,
        PNode.span ["hide_elo"] "(2400)".toList], ["elo_hidden"]⟩ :=
  ⟨rescan_idempotence_amended.1 _,
   rescan_idempotence_amended.2.1 _ _ _ (by decide),
   rescan_idempotence_amended.2.2 _ _ _ _ _ (by decide) (by decide)⟩

/-- C1 counterexample: a titled sidebar link is NOT idempotently rescanned.
Processing `IM foobar (2400)` once yields a five-child link; a second call on
that output returns a six-child link with an extra separator, so its visible
text gains a non-breaking space. -/
theorem rescan_titled_link_not_idempotent :
    processPlayer ⟨[PNode.span ["title"] "IM".toList,
        PNode.text " foobar (2400)".toList], []⟩ =
      some ⟨[PNode.span ["title"] "IM".toList, separator,
        PNode.text "foobar".toList, separator,
        PNode.span ["hide_elo"] "(2400)".toList], ["elo_hidden"]⟩ ∧
    processPlayer ⟨[PNode.span ["title"] "IM".toList, separator,
        PNode.text "foobar".toList, separator,
        PNode.span ["hide_elo"] "(2400)".toList], ["elo_hidden"]⟩ =
      some ⟨[PNode.span ["title"] "IM".toList, separator, separator,
        PNode.text "foobar".toList, separator,
        PNode.span ["hide_elo"] "(2400)".toList], ["elo_hidden"]⟩ ∧
    ([PNode.span ["title"] "IM".toList, separator, separator,
        PNode.text "foobar".toList, separator,
        PNode.span ["hide_elo"] "(2400)".toList].foldr
          (fun nd acc => nd.textContent ++ acc) [] ≠
     [PNode.span ["title"] "IM".toList, separator,
        PNode.text "foobar".toList, separator,
        PNode.span ["hide_elo"] "(2400)".toList].foldr
          (fun nd acc => nd.textContent ++ acc) []) := by
  refine ⟨by decide, by decide, by decide⟩

-- ---------- Claim C5 ----------

theorem threeDigits_cons {d1 d2 d3 : Char} (rest : List Char)
    (h1 : d1.isDigit = true) (h2 : d2.isDigit = true) (h3 : d3.isDigit = true) :
    threeDigits (d1 :: d2 :: d3 :: rest) = some ([d1, d2, d3], rest) := by
  simp [threeDigits, h1, h2, h3]

theorem threeDigits_stop {d2 d3 x : Char} (rest : List Char)
    (hx : x.isDigit = false) :
    threeDigits (d2 :: d3 :: x :: rest) = none := by
  simp [threeDigits, hx]

/-- The rating group succeeds on a canonical `[123]?\d{3}\??` token wrapped
in parentheses, capturing exactly the parenthesized token. -/
theorem ratingGroup_canonical (lead : Option Char) {d1 d2 d3 : Char} (q : Bool)
    (rest : List Char)
    (hlead : lead = none ∨ lead = some '1' ∨ lead = some '2' ∨ lead = some '3')
    (h1 : d1.isDigit = true) (h2 : d2.isDigit = true) (h3 : d3.isDigit = true) :
    ratingGroup ('(' :: (mkRating lead d1 d2 d3 q ++ ')' :: rest)) =
      some ('(' :: (mkRating lead d1 d2 d3 q ++ [')']), rest) := by
  rcases hlead with h | h | h | h <;> subst h <;> cases q
  case inl.false =>
    simp only [mkRating, Option.toList, List.nil_append, if_neg Bool.false_ne_true,
      List.append_nil]
    by_cases hd : (d1 == '1' || d1 == '2' || d1 == '3') = true
    · simp [ratingGroup, hd, threeDigits_stop rest (by decide : (')').isDigit = false),
        threeDigits_cons _ h1 h2 h3, qThenParen]
    · simp [ratingGroup, Bool.not_eq_true _ ▸ hd,
        threeDigits_cons _ h1 h2 h3, qThenParen]
  case inl.true =>
    simp only [mkRating, Option.toList, List.nil_append, if_pos rfl]
    by_cases hd : (d1 == '1' || d1 == '2' || d1 == '3') = true
    · simp [ratingGroup, hd, threeDigits_stop _ (by decide : ('?').isDigit = false),
        threeDigits_cons _ h1 h2 h3, qThenParen]
    · simp [ratingGroup, hd, threeDigits_cons _ h1 h2 h3, qThenParen]
  all_goals
    simp [mkRating, ratingGroup, threeDigits_cons _ h1 h2 h3, qThenParen]

/-- `leftSideboxNameRatingRE` at the start of `name ⬝ space ⬝ (rating)`:
the maximal `\S` run is exactly the whitespace-free name, the whitespace run
is the single space, and the rating group matches. -/
theorem lsMatchAt_canonical (name r rest : List Char)
    (hname : ∀ c ∈ name, jsWs c = false)
    (hr : ratingGroup ('(' :: (r ++ ')' :: rest)) = some ('(' :: (r ++ [')']), rest)) :
    lsMatchAt (name ++ ' ' :: '(' :: (r ++ ')' :: rest)) =
      some (name, '(' :: (r ++ [')'])) := by
  have hnot : ∀ c ∈ name, (fun x => !jsWs x) c = true := by
    intro c hc; simp [hname c hc]
  have hdrop : (name ++ ' ' :: '(' :: (r ++ ')' :: rest)).dropWhile (fun x => !jsWs x) =
      ' ' :: '(' :: (r ++ ')' :: rest) :=
    dropWhile_append_stop _ name ' ' ('(' :: (r ++ ')' :: rest)) hnot (by decide)
  have htake : (name ++ ' ' :: '(' :: (r ++ ')' :: rest)).takeWhile (fun x => !jsWs x) =
      name :=
    takeWhile_append_stop _ name ' ' ('(' :: (r ++ ')' :: rest)) hnot (by decide)
  unfold lsMatchAt
  rw [hdrop, htake]
  rw [takeWhile_cons_true _ (by decide), takeWhile_cons_false _ (by decide)]
  rw [dropWhile_cons_true _ (by decide), dropWhile_cons_false _ (by decide)]
  rw [hr]

/-- C5 (amended): for every whitespace-free name and every rating token of
the shape `[123]?\d{3}\??` (three digits, optionally preceded by `1`, `2` or
`3`, optionally suffixed by `?` — not every four-digit numeral), the pattern
`leftSideboxNameRatingRE` matches `name + " (" + rating + ")"`, yielding the
name with the rating removed and no residual whitespace, and
`hideRatingsInLeftSidebox` accordingly splits a fresh link into a name node,
a separator and a hidden rating span. -/
theorem leftSideboxNameRating_extracts_name (name : List Char)
    (lead : Option Char) {d1 d2 d3 : Char} (q : Bool) (cls : List String)
    (hname : ∀ c ∈ name, jsWs c = false)
    (hlead : lead = none ∨ lead = some '1' ∨ lead = some '2' ∨ lead = some '3')
    (h1 : d1.isDigit = true) (h2 : d2.isDigit = true) (h3 : d3.isDigit = true) :
    lsExec (mkNameRating name (mkRating lead d1 d2 d3 q)) =
      some (name, '(' :: (mkRating lead d1 d2 d3 q ++ [')'])) ∧
    processPlayer ⟨[PNode.text (mkNameRating name (mkRating lead d1 d2 d3 q))], cls⟩ =
      some ⟨[PNode.text name, separator,
        PNode.span ["hide_elo"] ('(' :: (mkRating lead d1 d2 d3 q ++ [')']))],
        classListAdd cls "elo_hidden"⟩ := by
  have hmatch := lsMatchAt_canonical name (mkRating lead d1 d2 d3 q) []
    hname (ratingGroup_canonical lead q [] hlead h1 h2 h3)
  have hexec : lsExec (mkNameRating name (mkRating lead d1 d2 d3 q)) =
      some (name, '(' :: (mkRating lead d1 d2 d3 q ++ [')'])) := by
    unfold mkNameRating
    cases name with
    | nil =>
      rw [List.nil_append, lsExec_cons]
      rw [List.nil_append] at hmatch
      rw [hmatch]
    | cons a as =>
      rw [List.cons_append, lsExec_cons, ← List.cons_append, hmatch]
  refine ⟨hexec, ?_⟩
  simp only [processPlayer, PNode.classList?]
  rw [if_neg (by simp)]
  rw [show PNode.textContent (PNode.text (mkNameRating name (mkRating lead d1 d2 d3 q))) =
    mkNameRating name (mkRating lead d1 d2 d3 q) from rfl]
  rw [hexec]
  rfl

/-- Witness for C5 at `foobar (1500?)`. -/
theorem leftSideboxNameRating_extracts_name_witness :
    lsExec (mkNameRating ("foobar".toList) (mkRating (some '1') '5' '0' '0' true)) =
      some ("foobar".toList,
        '(' :: (mkRating (some '1') '5' '0' '0' true ++ [')'])) ∧
    processPlayer ⟨[PNode.text (mkNameRating ("foobar".toList)
        (mkRating (some '1') '5' '0' '0' true))], []⟩ =
      some ⟨[PNode.text ("foobar".toList), separator,
        PNode.span ["hide_elo"] ('(' :: (mkRating (some '1') '5' '0' '0' true ++ [')']))],
        classListAdd [] "elo_hidden"⟩ :=
  leftSideboxNameRating_extracts_name _ _ _ _ (by decide)
    (by right; left; rfl) (by decide) (by decide) (by decide)

/-- C5 counterexample: `4000` is a four-digit rating, but
`leftSideboxNameRatingRE` only admits four-digit ratings beginning with `1`,
`2` or `3`, so on `foo (4000)` — an input of the claimed form — the pattern
does not match at all. -/
theorem leftSideboxNameRating_counterexample :
    "foo (4000)".toList = mkNameRating ("foo".toList) ("4000".toList) ∧
    lsExec ("foo (4000)".toList) = none := by
  constructor
  · decide
  · decide

-- ---------- Claim C3 ----------

theorem isPrefixOf_append_nl {pat : List Char} (hnl : '\n' ∉ pat) :
    ∀ (x y : List Char), pat.isPrefixOf (x ++ '\n' :: y) = pat.isPrefixOf x := by
  induction pat with
  | nil => intro x y; simp [List.isPrefixOf]
  | cons p ps ih =>
    intro x y
    cases x with
    | nil =>
      simp only [List.nil_append, List.isPrefixOf]
      have hp : (p == '\n') = false := by
        simp only [beq_eq_false_iff_ne]
        intro he
        exact hnl (by simp [he])
      simp [hp]
    | cons a as =>
      simp only [List.cons_append, List.isPrefixOf, List.append_eq]
      rw [ih (fun hm => hnl (by simp [hm])) as y]

/-- The four tag names contain no newline, so whether the alternation matches
at a position inside one line is unaffected by the rest of the text. -/
theorem tagAlt_append_nl (x y : List Char) :
    tagAlt (x ++ '\n' :: y) = tagAlt x := by
  unfold tagAlt
  rw [@isPrefixOf_append_nl ("WhiteElo".toList) (by decide) x y,
    @isPrefixOf_append_nl ("BlackElo".toList) (by decide) x y,
    @isPrefixOf_append_nl ("WhiteRatingDiff".toList) (by decide) x y,
    @isPrefixOf_append_nl ("BlackRatingDiff".toList) (by decide) x y]

theorem isPrefixOf_length_le {p l : List Char} (h : p.isPrefixOf l = true) :
    p.length ≤ l.length := by
  induction p generalizing l with
  | nil => simp
  | cons a as ih =>
    cases l with
    | nil => simp [List.isPrefixOf] at h
    | cons b bs =>
      simp only [List.isPrefixOf, Bool.and_eq_true] at h
      have := ih h.2
      simp only [List.length_cons]
      omega

theorem tagAlt_le_length {u : List Char} {t : Nat} (h : tagAlt u = some t) :
    t ≤ u.length ∧ 1 ≤ t := by
  unfold tagAlt at h
  split_ifs at h with h1 h2 h3 h4
  · have := isPrefixOf_length_le h1
    have h8 : ("WhiteElo".toList).length = 8 := by decide
    injection h with he
    omega
  · have := isPrefixOf_length_le h2
    have h8 : ("BlackElo".toList).length = 8 := by decide
    injection h with he
    omega
  · have := isPrefixOf_length_le h3
    have h15 : ("WhiteRatingDiff".toList).length = 15 := by decide
    injection h with he
    omega
  · have := isPrefixOf_length_le h4
    have h15 : ("BlackRatingDiff".toList).length = 15 := by decide
    injection h with he
    omega

theorem greedyDown_eq {l : List Char} {k0 : Nat} :
    ∀ k, k0 ≤ k → startsRBNL (l.drop k0) = true →
    (∀ j, k0 < j → j ≤ k → startsRBNL (l.drop j) = false) →
    greedyDown l k = some k0 := by
  intro k
  induction k with
  | zero =>
    intro hle h0 _
    have hz : k0 = 0 := by omega
    subst hz
    rw [List.drop_zero] at h0
    simp [greedyDown, h0]
  | succ k ih =>
    intro hle h0 huniq
    by_cases he : k0 = k + 1
    · subst he
      simp [greedyDown, h0]
    · have hk : k0 ≤ k := by omega
      have hfalse : startsRBNL (l.drop (k + 1)) = false :=
        huniq (k + 1) (by omega) (Nat.le_refl _)
      simp only [greedyDown, hfalse, Bool.false_eq_true, if_false]
      exact ih hk h0 (fun j hj1 hj2 => huniq j hj1 (by omega))

theorem stripPgnRatings_cons (c : Char) (rest : List Char) :
    stripPgnRatings (c :: rest) =
      match ratingTagMatchLen (c :: rest) with
      | some n => stripPgnRatings (rest.drop (n - 1))
      | none => c :: stripPgnRatings rest := by
  rw [stripPgnRatings]

theorem ratingTagCore_some {u : List Char} {t : Nat} (h : tagAlt u = some t) :
    ratingTagCore u = ratingTagTail t (u.drop t) := by
  unfold ratingTagCore
  rw [h]

/-- On a canonical rating tag line followed by its newline, the regex match
consumes exactly the line and the newline. -/
theorem ratingTagMatchLen_ratingLine {l : List Char} (rest : List Char)
    (h : isRatingLine l = true) :
    ratingTagMatchLen (l ++ '\n' :: rest) = some (l.length + 1) := by
  cases l with
  | nil => simp [isRatingLine] at h
  | cons c u =>
    simp only [isRatingLine, Bool.and_eq_true] at h
    obtain ⟨hc, hrest⟩ := h
    have hceq : c = '[' := by simpa using hc
    subst hceq
    cases htag : tagAlt u with
    | none => rw [htag] at hrest; simp at hrest
    | some t =>
      rw [htag] at hrest
      simp only [Bool.and_eq_true] at hrest
      obtain ⟨⟨hhead, hdot⟩, hlast⟩ := hrest
      have ht := tagAlt_le_length htag
      have hsplit : (u ++ '\n' :: rest).drop t = u.drop t ++ '\n' :: rest :=
        List.drop_append_of_le_length ht.1
      cases hafter : u.drop t with
      | nil => rw [hafter] at hhead; simp at hhead
      | cons a as =>
        rw [hafter] at hhead hdot hlast
        have hword : (!jsWordChar a) = true := hhead
        have hglsome : (a :: as).getLast? = some ']' := by simpa using hlast
        have hglne : (a :: as) ≠ [] := by simp
        have hgl : (a :: as).getLast hglne = ']' := by
          rw [List.getLast?_eq_getLast _ hglne] at hglsome
          exact Option.some_injective _ hglsome
        have hdl : (a :: as).dropLast ++ [']'] = a :: as := by
          rw [← hgl]
          exact List.dropLast_append_getLast hglne
        have hdllen : ((a :: as).dropLast).length = as.length := by
          simp
        have hulen : u.length = t + (as.length + 1) := by
          have hlen := congrArg List.length hafter
          rw [List.length_drop] at hlen
          simp at hlen
          omega
        -- reduce the match length computation
        have h1 : ratingTagMatchLen ('[' :: (u ++ '\n' :: rest)) =
            ratingTagCore (u ++ '\n' :: rest) := by
          simp [ratingTagMatchLen]
        have h2 : tagAlt (u ++ '\n' :: rest) = some t := by
          rw [tagAlt_append_nl, htag]
        have h3 : (u ++ '\n' :: rest).drop t = a :: (as ++ '\n' :: rest) := by
          rw [hsplit, hafter]
          simp
        have hdotall : ∀ x ∈ a :: as, jsDot x = true := by
          intro x hx
          exact (List.all_eq_true.mp hdot) x hx
        have htw : (a :: (as ++ '\n' :: rest)).takeWhile jsDot = a :: as := by
          have := takeWhile_append_stop jsDot (a :: as) '\n' rest hdotall (by decide)
          simpa using this
        -- the rewritten line: a :: (as ++ newline rest) = dropLast ++ (']' newline rest)
        have hshape : a :: (as ++ '\n' :: rest) =
            ((a :: as).dropLast) ++ (']' :: '\n' :: rest) := by
          conv =>
            lhs
            rw [show a :: (as ++ '\n' :: rest) = (a :: as) ++ '\n' :: rest by simp]
          rw [← hdl]
          simp
        have hstart : startsRBNL ((a :: (as ++ '\n' :: rest)).drop as.length) = true := by
          rw [hshape, List.drop_left' hdllen]
          rfl
        have huniq : ∀ j, as.length < j → j ≤ as.length + 1 →
            startsRBNL ((a :: (as ++ '\n' :: rest)).drop j) = false := by
          intro j hj1 hj2
          have hj : j = as.length + 1 := by omega
          subst hj
          have hlen2 : (((a :: as).dropLast) ++ [']']).length = as.length + 1 := by
            simp [hdllen]
          have : a :: (as ++ '\n' :: rest) =
              (((a :: as).dropLast) ++ [']']) ++ ('\n' :: rest) := by
            rw [hshape]
            simp
          rw [this, List.drop_left' hlen2]
          rfl
        have hgreedy : greedyDown (a :: (as ++ '\n' :: rest)) (a :: as).length =
            some as.length := by
          have hlen3 : (a :: as).length = as.length + 1 := by simp
          rw [hlen3]
          exact greedyDown_eq (as.length + 1) (by omega) hstart huniq
        have h4 : ratingTagTail t (a :: (as ++ '\n' :: rest)) =
            some (1 + t + as.length + 2) := by
          unfold ratingTagTail
          rw [if_pos hword, htw]
          rw [show (a :: as).length = as.length + 1 from by simp] at hgreedy
          rw [show (a :: as).length = as.length + 1 from by simp, hgreedy]
        rw [List.cons_append, h1, ratingTagCore_some h2, h3, h4]
        have : 1 + t + as.length + 2 = ('[' :: u).length + 1 := by
          simp [hulen]
          omega
        rw [this]

theorem safeLine_parts {c : Char} {l : List Char} (h : safeLine (c :: l) = true) :
    ((!(c == '[')) || (tagAlt l == none)) = true ∧ safeLine l = true := by
  unfold safeLine at h
  rw [show (c :: l).tails = (c :: l) :: l.tails from rfl] at h
  simp only [List.all_cons, Bool.and_eq_true] at h
  refine ⟨h.1, ?_⟩
  unfold safeLine
  exact h.2

/-- Scanning through a safe line copies it unchanged: no match of
`pgnRatingsRE` can start inside it. -/
theorem stripPgnRatings_safe (l : List Char) (rest : List Char)
    (hsafe : safeLine l = true) :
    stripPgnRatings (l ++ '\n' :: rest) = l ++ '\n' :: stripPgnRatings rest := by
  induction l with
  | nil =>
    simp only [List.nil_append]
    rw [stripPgnRatings_cons,
      show ratingTagMatchLen ('\n' :: rest) = none from by simp [ratingTagMatchLen]]
  | cons c l ih =>
    obtain ⟨hhead, htail⟩ := safeLine_parts hsafe
    have hmatch : ratingTagMatchLen (c :: (l ++ '\n' :: rest)) = none := by
      by_cases hc : (c == '[') = true
      · rw [hc] at hhead
        simp only [Bool.not_true, Bool.false_or, beq_iff_eq] at hhead
        simp [ratingTagMatchLen, hc, ratingTagCore, tagAlt_append_nl, hhead]
      · simp [ratingTagMatchLen, hc]
    rw [List.cons_append, stripPgnRatings_cons, hmatch]
    show c :: stripPgnRatings (l ++ '\n' :: rest) = c :: (l ++ '\n' :: stripPgnRatings rest)
    rw [ih htail]

/-- Scanning a canonical rating tag line deletes it together with its
newline. -/
theorem stripPgnRatings_rating (l : List Char) (rest : List Char)
    (h : isRatingLine l = true) :
    stripPgnRatings (l ++ '\n' :: rest) = stripPgnRatings rest := by
  cases l with
  | nil => simp [isRatingLine] at h
  | cons c u =>
    have hml := ratingTagMatchLen_ratingLine rest h
    rw [List.cons_append] at hml
    rw [List.cons_append, stripPgnRatings_cons, hml]
    show stripPgnRatings ((u ++ '\n' :: rest).drop ((c :: u).length + 1 - 1)) =
      stripPgnRatings rest
    have hdrop : (u ++ '\n' :: rest).drop ((c :: u).length + 1 - 1) = rest := by
      have h2 : (u ++ ['\n']).length = u.length + 1 := by simp
      rw [show (c :: u).length + 1 - 1 = u.length + 1 from by simp]
      rw [show u ++ '\n' :: rest = (u ++ ['\n']) ++ rest from by simp]
      rw [List.drop_left' h2]
    rw [hdrop]

theorem unlines_cons (l : List Char) (ls : List (List Char)) :
    unlines (l :: ls) = l ++ '\n' :: unlines ls := rfl

/-- The global replace deletes exactly the rating tag lines of a
line-structured text. -/
theorem stripPgnRatings_unlines (ls : List (List Char))
    (h : ∀ l ∈ ls, isRatingLine l = true ∨ safeLine l = true) :
    stripPgnRatings (unlines ls) =
      unlines (ls.filter (fun l => !isRatingLine l)) := by
  induction ls with
  | nil =>
    show stripPgnRatings [] = unlines (List.filter (fun l => !isRatingLine l) [])
    rw [stripPgnRatings]
    rfl
  | cons l ls ih =>
    have hl := h l (by simp)
    have hls : ∀ x ∈ ls, isRatingLine x = true ∨ safeLine x = true :=
      fun x hx => h x (by simp [hx])
    rw [unlines_cons]
    by_cases hr : isRatingLine l = true
    · rw [stripPgnRatings_rating _ _ hr, ih hls,
        show (l :: ls).filter (fun l => !isRatingLine l) =
          ls.filter (fun l => !isRatingLine l) from by simp [List.filter_cons, hr]]
    · have hsafe : safeLine l = true := hl.resolve_left hr
      rw [stripPgnRatings_safe _ _ hsafe, ih hls,
        show (l :: ls).filter (fun l => !isRatingLine l) =
          l :: ls.filter (fun l => !isRatingLine l) from by
            simp [List.filter_cons, hr]]
      rfl

/-- C3: the retained hidden copy of the embedded PGN equals the original with
every WhiteElo/BlackElo/WhiteRatingDiff/BlackRatingDiff tag line — including
its terminating newline — removed (for a PGN made of rating tag lines and
lines on which no tag match can start), and `doTheThing` displays the
stripped copy exactly when concealment is enabled and the page is not
denylisted, restoring the original text verbatim otherwise.  The original
copy itself is never modified. -/
theorem pgn_panel_strip_and_restore :
    (∀ ls : List (List Char),
       (∀ l ∈ ls, isRatingLine l = true ∨ safeLine l = true) →
       stripPgnRatings (unlines ls) =
         unlines (ls.filter (fun l => !isRatingLine l))) ∧
    (∀ (env : Env) (st : PageState),
       env.hiddenPgn = stripPgnRatings env.originalPgn →
       (env.enabled = true → skipPageTest env.href = false →
          (doTheThing env st).pgnText =
            st.pgnText.map (fun _ => stripPgnRatings env.originalPgn)) ∧
       ((env.enabled = false ∨ skipPageTest env.href = true) →
          (doTheThing env st).pgnText = st.pgnText.map (fun _ => env.originalPgn))) := by
  refine ⟨stripPgnRatings_unlines, ?_⟩
  intro env st hhid
  constructor
  · intro hen hskip
    unfold doTheThing
    rw [hen, hskip]
    simp [hhid]
  · intro hcase
    unfold doTheThing
    rcases hcase with hen | hskip
    · rw [hen]
      simp
    · rw [hskip]
      simp

/-- Witness for C3 on the spec's example PGN
`[WhiteElo "1500"]\n[BlackElo "1400"]\n1. e4 e5\n`, with a concrete enabled,
non-denylisted environment. -/
theorem pgn_panel_strip_and_restore_witness :
    stripPgnRatings (unlines [("[WhiteElo \"1500\"]".toList),
        ("[BlackElo \"1400\"]".toList), ("1. e4 e5".toList)]) =
      unlines (([("[WhiteElo \"1500\"]".toList), ("[BlackElo \"1400\"]".toList),
        ("1. e4 e5".toList)]).filter (fun l => !isRatingLine l)) ∧
    ((true = true → skipPageTest ("https://lichess.org/abcd1234".toList) = false →
       (doTheThing
         ⟨true, ("https://lichess.org/abcd1234".toList), [], [],
           ("[WhiteElo \"1500\"]\n".toList),
           stripPgnRatings ("[WhiteElo \"1500\"]\n".toList)⟩
         ⟨[], [], some []⟩).pgnText =
         (some ([] : List Char)).map
           (fun _ => stripPgnRatings ("[WhiteElo \"1500\"]\n".toList))) ∧
     ((true = false ∨ skipPageTest ("https://lichess.org/abcd1234".toList) = true) →
       (doTheThing
         ⟨true, ("https://lichess.org/abcd1234".toList), [], [],
           ("[WhiteElo \"1500\"]\n".toList),
           stripPgnRatings ("[WhiteElo \"1500\"]\n".toList)⟩
         ⟨[], [], some []⟩).pgnText =
         (some ([] : List Char)).map (fun _ => ("[WhiteElo \"1500\"]\n".toList)))) :=
  ⟨pgn_panel_strip_and_restore.1 _ (by decide),
   pgn_panel_strip_and_restore.2
     ⟨true, ("https://lichess.org/abcd1234".toList), [], [],
       ("[WhiteElo \"1500\"]\n".toList),
       stripPgnRatings ("[WhiteElo \"1500\"]\n".toList)⟩
     ⟨[], [], some []⟩ rfl⟩

-- ---------- Claim C9 ----------

/-- C9: `interceptPgnDownload` lets the click proceed to the default
download (returns true) exactly when concealment is disabled and the
FEN-conversion option is off; in every other case it returns false and the
synthetic download's content is the fetched text with the rating tag lines
removed when concealment is enabled (and FEN-converted when the option is
set), so the unfiltered file never reaches the user through the default path
while either option is active. -/
theorem interceptPgnDownload_gates_default :
    (∀ (e c : Bool) (t : List Char),
       (interceptPgnDownload e c t).1 = true ↔ (e = false ∧ c = false)) ∧
    (∀ t : List Char,
       interceptPgnDownload true false t = (false, some (stripPgnRatings t)) ∧
       interceptPgnDownload true true t =
         (false, some (doConvertFen (stripPgnRatings t))) ∧
       interceptPgnDownload false true t = (false, some (doConvertFen t))) ∧
    (∀ ls : List (List Char),
       (∀ l ∈ ls, isRatingLine l = true ∨ safeLine l = true) →
       (interceptPgnDownload true false (unlines ls)).2 =
         some (unlines (ls.filter (fun l => !isRatingLine l)))) := by
  refine ⟨?_, ?_, ?_⟩
  · intro e c t
    cases e <;> cases c <;> simp [interceptPgnDownload]
  · intro t
    refine ⟨?_, ?_, ?_⟩ <;> simp [interceptPgnDownload]
  · intro ls h
    simp only [interceptPgnDownload]
    rw [stripPgnRatings_unlines ls h]
    simp

/-- Witness for C9: the default path is taken only with both options off,
and with concealment on the served file is the fetched text minus its rating
tag line. -/
theorem interceptPgnDownload_gates_default_witness :
    ((interceptPgnDownload false false ("x".toList)).1 = true ↔
      (false = false ∧ false = false)) ∧
    (interceptPgnDownload true false
        (unlines [("[WhiteElo \"1500\"]".toList), ("1. e4".toList)])).2 =
      some (unlines (([("[WhiteElo \"1500\"]".toList), ("1. e4".toList)]).filter
        (fun l => !isRatingLine l))) :=
  ⟨interceptPgnDownload_gates_default.1 false false _,
   interceptPgnDownload_gates_default.2.2 _ (by decide)⟩

-- ---------- Claim C7 ----------

/-- C7: the mini-game handlers throw on player containers with fewer child
nodes than the expected shape, contradicting the no-throw requirement.  With
no left container and a right container of only two children,
`hideRatingsInMiniGame` evaluates `childNodes[2].remove()` on `undefined`
(modelled `none`); with an empty left container it evaluates
`childNodes[-1].remove()`; and `hideRatingsInMiniGameLegend` from the later
variant fails the same way on a second player with two children. -/
theorem miniGame_short_children_throws :
    hideRatingsInMiniGame none (some [PNode.text ("foobar".toList), separator]) =
      none ∧
    hideRatingsInMiniGame (some []) none = none ∧
    hideRatingsInMiniGameLegend
      [[PNode.text ("a".toList)], [PNode.text ("b".toList), separator]] = none := by
  refine ⟨by decide, by decide, by decide⟩

-- ---------- Claim C4 ----------

theorem takeWhile_append_mid {α : Type} (p : α → Bool) (xs : List α) (y : α)
    (ys : List α) (hy : p y = false) :
    (xs ++ y :: ys).takeWhile p = xs.takeWhile p := by
  induction xs with
  | nil => simp [List.takeWhile_cons, hy]
  | cons a as ih =>
    by_cases ha : p a = true
    · simp only [List.cons_append, List.takeWhile_cons, ha, if_true]
      rw [ih]
    · have ha2 : p a = false := by revert ha; cases p a <;> simp
      simp [List.takeWhile_cons, ha2]

theorem parseWsRun_single {x : Char} (xs : List Char) (hx : jsWs x = false) :
    parseWsRun (' ' :: x :: xs) = some ([' '], x :: xs) := by
  unfold parseWsRun
  rw [takeWhile_cons_true _ (by decide), takeWhile_cons_false _ hx,
    dropWhile_cons_true _ (by decide), dropWhile_cons_false _ hx]

theorem parseNonWsRun_name {a : Char} (as : List Char) {x : Char} (xs : List Char)
    (hname : ∀ c ∈ a :: as, jsWs c = false) (hx : jsWs x = true) :
    parseNonWsRun ((a :: as) ++ x :: xs) = some (a :: as, x :: xs) := by
  have hall : ∀ c ∈ a :: as, (fun y => !jsWs y) c = true := by
    intro c hc; simp [hname c hc]
  have h1 : ((a :: as) ++ x :: xs).takeWhile (fun c => !jsWs c) = a :: as :=
    takeWhile_append_stop _ (a :: as) x xs hall (by simp [hx])
  have h2 : ((a :: as) ++ x :: xs).dropWhile (fun c => !jsWs c) = x :: xs :=
    dropWhile_append_stop _ (a :: as) x xs hall (by simp [hx])
  unfold parseNonWsRun
  rw [h1, h2]

theorem parseUpperRun_fails (name : List Char) (x : Char) (xs : List Char)
    (hshort : (name.takeWhile upperAscii).length < 2) (hx : upperAscii x = false) :
    parseUpperRun (name ++ x :: xs) = none := by
  unfold parseUpperRun
  rw [takeWhile_append_mid _ name x xs hx, if_pos hshort]

theorem parseTNR_true_fails (A : List Char) (tail : List Char)
    (hshort : (A.takeWhile upperAscii).length < 2) :
    parseTNR true (A ++ ' ' :: tail) = none := by
  unfold parseTNR
  rw [if_pos rfl, parseUpperRun_fails A ' ' tail hshort (by decide)]

theorem parseTNR_false_canonical {a : Char} (as : List Char) (r rest : List Char)
    (hname : ∀ c ∈ a :: as, jsWs c = false)
    (hrg : ratingGroup ('(' :: (r ++ ')' :: rest)) = some ('(' :: (r ++ [')']), rest)) :
    parseTNR false ((a :: as) ++ ' ' :: '(' :: (r ++ ')' :: rest)) =
      some (a :: as, '(' :: (r ++ [')']), rest) := by
  unfold parseTNR
  rw [if_neg (by simp)]
  rw [parseNonWsRun_name as ('(' :: (r ++ ')' :: rest)) hname (by decide)]
  dsimp only
  rw [parseWsRun_single _ (by decide)]
  dsimp only
  rw [hrg]

theorem parseWsRun_before_append {b : Char} (bs tail : List Char)
    (hb : jsWs b = false) :
    parseWsRun (' ' :: ((b :: bs) ++ tail)) = some ([' '], (b :: bs) ++ tail) := by
  rw [List.cons_append]
  exact parseWsRun_single _ hb

theorem tvTail2_canonical {s0 : Char} (ss : List Char) (g1 g2 g3 g4 : List Char)
    (hs0 : jsWs s0 = false) (hsite : ∀ c ∈ s0 :: ss, jsDot c = true) :
    tvTail2 g1 g2 g3 g4 (' ' :: s0 :: ss) = some ⟨g1, g2, g3, g4, s0 :: ss⟩ := by
  unfold tvTail2
  rw [parseWsRun_single _ hs0]
  dsimp only
  rw [takeWhile_all jsDot hsite]

theorem tvTail1_canonical {b s0 : Char} (bs ss : List Char) (r2 : List Char)
    (g1 g2 : List Char)
    (hB : ∀ c ∈ b :: bs, jsWs c = false)
    (hBshort : ((b :: bs).takeWhile upperAscii).length < 2)
    (hs0 : jsWs s0 = false) (hsite : ∀ c ∈ s0 :: ss, jsDot c = true)
    (hrg2 : ratingGroup ('(' :: (r2 ++ ')' :: ' ' :: (s0 :: ss))) =
      some ('(' :: (r2 ++ [')']), ' ' :: (s0 :: ss))) :
    tvTail1 g1 g2
      (' ' :: '-' :: ' ' :: ((b :: bs) ++ ' ' :: '(' :: (r2 ++ ')' :: ' ' :: (s0 :: ss)))) =
      some ⟨g1, g2, b :: bs, '(' :: (r2 ++ [')']), s0 :: ss⟩ := by
  unfold tvTail1
  rw [parseWsRun_single _ (by decide)]
  dsimp only
  rw [if_pos (show (('-' : Char) == '-') = true from rfl)]
  rw [parseWsRun_before_append _ _ (hB b (by simp))]
  dsimp only
  rw [parseTNR_true_fails (b :: bs) ('(' :: (r2 ++ ')' :: ' ' :: (s0 :: ss))) hBshort]
  rw [parseTNR_false_canonical bs r2 (' ' :: (s0 :: ss)) hB hrg2]
  dsimp only
  rw [Option.none_orElse]
  exact tvTail2_canonical ss g1 g2 (b :: bs) ('(' :: (r2 ++ [')'])) hs0 hsite

theorem tvMatchAt_canonical {a b s0 : Char} (as bs ss : List Char)
    (r1 r2 : List Char)
    (hA : ∀ c ∈ a :: as, jsWs c = false)
    (hAshort : ((a :: as).takeWhile upperAscii).length < 2)
    (hB : ∀ c ∈ b :: bs, jsWs c = false)
    (hBshort : ((b :: bs).takeWhile upperAscii).length < 2)
    (hs0 : jsWs s0 = false) (hsite : ∀ c ∈ s0 :: ss, jsDot c = true)
    (hrg1 : ratingGroup ('(' :: (r1 ++ ')' :: ' ' :: '-' :: ' ' ::
        ((b :: bs) ++ ' ' :: '(' :: (r2 ++ ')' :: ' ' :: (s0 :: ss))))) =
      some ('(' :: (r1 ++ [')']),
        ' ' :: '-' :: ' ' :: ((b :: bs) ++ ' ' :: '(' :: (r2 ++ ')' :: ' ' :: (s0 :: ss)))))
    (hrg2 : ratingGroup ('(' :: (r2 ++ ')' :: ' ' :: (s0 :: ss))) =
      some ('(' :: (r2 ++ [')']), ' ' :: (s0 :: ss))) :
    tvMatchAt (mkTvTitle (a :: as) r1 (b :: bs) r2 (s0 :: ss)) =
      some ⟨a :: as, '(' :: (r1 ++ [')']), b :: bs, '(' :: (r2 ++ [')']), s0 :: ss⟩ := by
  unfold tvMatchAt mkTvTitle
  rw [parseTNR_true_fails (a :: as)
    ('(' :: (r1 ++ ')' :: ' ' :: '-' :: ' ' ::
      ((b :: bs) ++ ' ' :: '(' :: (r2 ++ ')' :: ' ' :: (s0 :: ss))))) hAshort]
  rw [parseTNR_false_canonical as r1
    (' ' :: '-' :: ' ' :: ((b :: bs) ++ ' ' :: '(' :: (r2 ++ ')' :: ' ' :: (s0 :: ss))))
    hA hrg1]
  dsimp only
  rw [Option.none_orElse]
  exact tvTail1_canonical bs ss r2 (a :: as) ('(' :: (r1 ++ [')'])) hB hBshort hs0
    hsite hrg2

theorem tvTitleExec_cons (c : Char) (rest : List Char) :
    tvTitleExec (c :: rest) =
      match tvMatchAt (c :: rest) with
      | some m => some m
      | none => tvTitleExec rest := rfl

/-- C4 (amended): the stripped title is only computed on a TV page (URL
ending in `/tv`); there, for every title `A (r1) - B (r2) site` with
whitespace-free names not starting with a two-letter uppercase title prefix
and a canonical rating shape, the retained hidden title has both
parenthesized ratings removed, and every toggle sets the live title to the
hidden title when concealment is enabled (and the page is not denylisted)
and to the original title otherwise.  On non-TV pages the hidden title
simply equals the original. -/
theorem tvTitle_strip_and_toggle {a b s0 : Char} (as bs ss : List Char)
    (lead1 lead2 : Option Char) {d1 d2 d3 e1 e2 e3 : Char} (q1 q2 : Bool)
    (href : List Char)
    (hA : ∀ c ∈ a :: as, jsWs c = false)
    (hAshort : ((a :: as).takeWhile upperAscii).length < 2)
    (hB : ∀ c ∈ b :: bs, jsWs c = false)
    (hBshort : ((b :: bs).takeWhile upperAscii).length < 2)
    (hs0 : jsWs s0 = false)
    (hsite : ∀ c ∈ s0 :: ss, jsDot c = true)
    (hlead1 : lead1 = none ∨ lead1 = some '1' ∨ lead1 = some '2' ∨ lead1 = some '3')
    (hlead2 : lead2 = none ∨ lead2 = some '1' ∨ lead2 = some '2' ∨ lead2 = some '3')
    (hd1 : d1.isDigit = true) (hd2 : d2.isDigit = true) (hd3 : d3.isDigit = true)
    (he1 : e1.isDigit = true) (he2 : e2.isDigit = true) (he3 : e3.isDigit = true)
    (htv : tvTitlePageTest href = true) :
    computeHiddenTitle href
        (mkTvTitle (a :: as) (mkRating lead1 d1 d2 d3 q1) (b :: bs)
          (mkRating lead2 e1 e2 e3 q2) (s0 :: ss)) =
      (a :: as) ++ ' ' :: '-' :: ' ' :: ((b :: bs) ++ ' ' :: (s0 :: ss)) ∧
    (∀ (href2 t : List Char), tvTitlePageTest href2 = false →
       computeHiddenTitle href2 t = t) ∧
    (∀ (env : Env) (st : PageState),
       (env.enabled = true → skipPageTest env.href = false →
          (doTheThing env st).title = env.hiddenTitle) ∧
       ((env.enabled = false ∨ skipPageTest env.href = true) →
          (doTheThing env st).title = env.originalTitle)) := by
  have hrg2 := ratingGroup_canonical lead2 q2 (' ' :: (s0 :: ss)) hlead2 he1 he2 he3
  have hrg1 := ratingGroup_canonical lead1 q1
    (' ' :: '-' :: ' ' :: ((b :: bs) ++ ' ' :: '(' ::
      (mkRating lead2 e1 e2 e3 q2 ++ ')' :: ' ' :: (s0 :: ss)))) hlead1 hd1 hd2 hd3
  have hm := tvMatchAt_canonical as bs ss (mkRating lead1 d1 d2 d3 q1)
    (mkRating lead2 e1 e2 e3 q2) hA hAshort hB hBshort hs0 hsite hrg1 hrg2
  have hshape : mkTvTitle (a :: as) (mkRating lead1 d1 d2 d3 q1) (b :: bs)
      (mkRating lead2 e1 e2 e3 q2) (s0 :: ss) =
      a :: (as ++ ' ' :: '(' :: (mkRating lead1 d1 d2 d3 q1 ++ ')' :: ' ' :: '-' :: ' ' ::
        ((b :: bs) ++ ' ' :: '(' :: (mkRating lead2 e1 e2 e3 q2 ++ ')' :: ' ' ::
          (s0 :: ss))))) := by
    simp [mkTvTitle]
  have hexec : tvTitleExec (mkTvTitle (a :: as) (mkRating lead1 d1 d2 d3 q1) (b :: bs)
      (mkRating lead2 e1 e2 e3 q2) (s0 :: ss)) =
      some ⟨a :: as, '(' :: (mkRating lead1 d1 d2 d3 q1 ++ [')']), b :: bs,
        '(' :: (mkRating lead2 e1 e2 e3 q2 ++ [')']), s0 :: ss⟩ := by
    rw [hshape, tvTitleExec_cons, ← hshape, hm]
  refine ⟨?_, ?_, ?_⟩
  · unfold computeHiddenTitle
    rw [if_pos htv, hexec]
    simp
  · intro href2 t h2
    unfold computeHiddenTitle
    rw [if_neg (by simp [h2])]
  · intro env st
    constructor
    · intro hen hskip
      unfold doTheThing
      rw [hen, hskip]
      simp
    · intro hcase
      unfold doTheThing
      rcases hcase with hen | hskip
      · rw [hen]
        simp
      · rw [hskip]
        simp

/-- Witness for C4 at the spec's example title on the TV page. -/
theorem tvTitle_strip_and_toggle_witness :
    computeHiddenTitle ("https://lichess.org/tv".toList)
        (mkTvTitle ("alice".toList) (mkRating (some '1') '5' '0' '0' false)
          ("bob".toList) (mkRating (some '1') '4' '0' '0' false)
          ("* site.org".toList)) =
      ("alice".toList) ++ ' ' :: '-' :: ' ' ::
        (("bob".toList) ++ ' ' :: ("* site.org".toList)) ∧
    (∀ (href2 t : List Char), tvTitlePageTest href2 = false →
       computeHiddenTitle href2 t = t) ∧
    (∀ (env : Env) (st : PageState),
       (env.enabled = true → skipPageTest env.href = false →
          (doTheThing env st).title = env.hiddenTitle) ∧
       ((env.enabled = false ∨ skipPageTest env.href = true) →
          (doTheThing env st).title = env.originalTitle)) :=
  tvTitle_strip_and_toggle ("lice".toList) ("ob".toList) (" site.org".toList)
    (some '1') (some '1') false false ("https://lichess.org/tv".toList)
    (by decide) (by decide) (by decide) (by decide) (by decide) (by decide)
    (by right; left; rfl) (by right; left; rfl)
    (by decide) (by decide) (by decide) (by decide) (by decide) (by decide)
    (by decide)

/-- C4 counterexample: on a page whose URL does not end in `/tv` the stripped
title is never computed, although the title matches the two-player pattern:
the hidden title stays equal to the original, so with concealment enabled
`doTheThing` leaves the ratings in the live title. -/
theorem tvTitle_not_stripped_off_tv_page :
    (tvTitleExec ("alice (1500) - bob (1400) * site.org".toList)).isSome = true ∧
    computeHiddenTitle ("https://lichess.org/abcd1234".toList)
        ("alice (1500) - bob (1400) * site.org".toList) =
      ("alice (1500) - bob (1400) * site.org".toList) ∧
    ("alice (1500) - bob (1400) * site.org".toList ≠
      "alice - bob * site.org".toList) ∧
    (doTheThing
        ⟨true, ("https://lichess.org/abcd1234".toList),
          ("alice (1500) - bob (1400) * site.org".toList),
          computeHiddenTitle ("https://lichess.org/abcd1234".toList)
            ("alice (1500) - bob (1400) * site.org".toList), [], []⟩
        ⟨[], ("alice (1500) - bob (1400) * site.org".toList), none⟩).title =
      ("alice (1500) - bob (1400) * site.org".toList) := by
  refine ⟨by decide, by decide, by decide, by decide⟩

-- ---------- Claims C8 and C10 ----------

theorem expectLit_head_ne {p : Char} (ps : List Char) {c : Char} (cs : List Char)
    (h : (p == c) = false) : expectLit (p :: ps) (c :: cs) = none := by
  unfold expectLit
  rw [if_neg]
  simp [List.isPrefixOf, h]

theorem expectLit_single {c : Char} (rest : List Char) :
    expectLit [c] (c :: rest) = some rest := by
  unfold expectLit
  rw [if_pos (by simp [List.isPrefixOf])]
  simp

theorem fenMatchAt_not_bracket {c : Char} (rest : List Char)
    (h : (('[' : Char) == c) = false) : fenMatchAt (c :: rest) = none := by
  unfold fenMatchAt
  rw [show ("[FEN".toList) = '[' :: ['F', 'E', 'N'] from rfl,
    expectLit_head_ne _ _ h]

theorem fenExec_cons (c : Char) (rest : List Char) :
    fenExec (c :: rest) =
      match fenMatchAt (c :: rest) with
      | some (m, post) => some ([], m, post)
      | none =>
        match fenExec rest with
        | some (pre, m, post) => some (c :: pre, m, post)
        | none => none := rfl

/-- `fenRE` matches strictly after a bracket-free prefix, if at all. -/
theorem fenExec_append_no_bracket (pre l : List Char) (hpre : '[' ∉ pre) :
    fenExec (pre ++ l) =
      match fenExec l with
      | some (p, m, post) => some (pre ++ p, m, post)
      | none => none := by
  induction pre with
  | nil =>
    cases h : fenExec l with
    | none => simp [h]
    | some x =>
      obtain ⟨p, m, post⟩ := x
      simp [h]
  | cons c cs ih =>
    have hc : (('[' : Char) == c) = false := by
      simp only [beq_eq_false_iff_ne]
      intro he
      exact hpre (by simp [he.symm])
    rw [List.cons_append, fenExec_cons, fenMatchAt_not_bracket _ hc]
    dsimp only
    rw [ih (fun hm => hpre (by simp [hm]))]
    cases h : fenExec l with
    | none => simp
    | some x =>
      obtain ⟨p, m, post⟩ := x
      simp

theorem fenExec_none_of_no_bracket (l : List Char) (h : '[' ∉ l) :
    fenExec l = none := by
  induction l with
  | nil => rfl
  | cons c cs ih =>
    have hc : (('[' : Char) == c) = false := by
      simp only [beq_eq_false_iff_ne]
      intro he
      exact h (by simp [he.symm])
    rw [fenExec_cons, fenMatchAt_not_bracket _ hc]
    dsimp only
    rw [ih (fun hm => h (by simp [hm]))]

theorem takeClassN_exact (p : Char → Bool) (l rest : List Char)
    (hall : ∀ c ∈ l, p c = true) :
    takeClassN p l.length (l ++ rest) = some (l, rest) := by
  induction l with
  | nil => rfl
  | cons a as ih =>
    show takeClassN p (as.length + 1) (a :: (as ++ rest)) = some (a :: as, rest)
    unfold takeClassN
    rw [if_pos (hall a (by simp))]
    rw [ih (fun c hc => hall c (by simp [hc]))]

/-- Parsing a FEN tag whose castling section is left abstract: the match
reaches the literal `KQkq - 0 1"]\n` check against `tail`. -/
theorem fenMatchAt_through {h0 : Char} (br wr : List Char) (t : Char)
    (hs : List Char) (tail : List Char)
    (hbrlen : br.length = 8) (hbr : ∀ c ∈ br, nbrqkClass c = true)
    (hwrlen : wr.length = 8) (hwr : ∀ c ∈ wr, nbrqkUpperClass c = true)
    (ht : t = 'w' ∨ t = 'b')
    (htail : tail = h0 :: hs) (hh0 : jsWs h0 = false) :
    fenMatchAt (("[FEN".toList) ++ (' ' :: '"' ::
        (br ++ (fenMid ++ (wr ++ ' ' :: t :: ' ' :: tail))))) =
      (match expectLit ("KQkq - 0 1\"]\n".toList) tail with
       | some post => some (⟨br, wr, [' '], t, [' ']⟩, post)
       | none => none) := by
  subst htail
  unfold fenMatchAt
  rw [expectLit_self_append]
  dsimp only
  rw [dropWhile_cons_true _ (by decide), dropWhile_cons_false _ (by decide)]
  rw [expectLit_single]
  dsimp only
  rw [show (8 : Nat) = br.length from hbrlen.symm, takeClassN_exact _ _ _ hbr]
  dsimp only
  rw [expectLit_self_append]
  dsimp only
  rw [show br.length = wr.length from by rw [hbrlen, hwrlen],
    takeClassN_exact _ _ _ hwr]
  dsimp only
  have hws1 : parseWsRun (' ' :: t :: ' ' :: h0 :: hs) =
      some ([' '], t :: ' ' :: h0 :: hs) :=
    parseWsRun_single _ (by rcases ht with h | h <;> subst h <;> decide)
  rw [hws1]
  dsimp only
  rw [if_pos (by rcases ht with h | h <;> subst h <;> decide)]
  rw [parseWsRun_single _ hh0]
  dsimp only
  cases hlit : expectLit ("KQkq - 0 1\"]\n".toList) (h0 :: hs) <;> rfl

theorem nbrqkClass_to_upper {c : Char} (h : nbrqkClass c = true) :
    nbrqkUpperClass (jsToUpper c) = true := by
  simp only [nbrqkClass, Bool.or_eq_true, beq_iff_eq] at h
  rcases h with (((h | h) | h) | h) | h <;> subst h <;> decide

theorem jsIndexOfAux_some_get {c : Char} {l : List Char} {n : Nat}
    (h : jsIndexOfAux c l = some n) : l.get? n = some c := by
  induction l generalizing n with
  | nil => simp [jsIndexOfAux] at h
  | cons x xs ih =>
    unfold jsIndexOfAux at h
    by_cases hx : (x == c) = true
    · rw [if_pos hx] at h
      injection h with h
      subst h
      rw [List.get?_cons_zero]
      exact congrArg some (beq_iff_eq.mp hx)
    · rw [if_neg hx] at h
      cases h2 : jsIndexOfAux c xs with
      | none => rw [h2] at h; simp at h
      | some m =>
        rw [h2] at h
        simp only [Option.map_some'] at h
        injection h with h
        subst h
        rw [List.get?_cons_succ]
        exact ih h2

theorem get?_some_lt {l : List Char} {n : Nat} {a : Char} (h : l.get? n = some a) :
    n < l.length := by
  by_contra hn
  rw [List.get?_eq_none.mpr (by omega)] at h
  exact absurd h (by simp)

theorem fenMatchAt_canonical (post br wr : List Char) (t : Char)
    (hbrlen : br.length = 8) (hbr : ∀ c ∈ br, nbrqkClass c = true)
    (hwrlen : wr.length = 8) (hwr : ∀ c ∈ wr, nbrqkUpperClass c = true)
    (ht : t = 'w' ∨ t = 'b') :
    fenMatchAt (mkFenTag br wr t ++ post) =
      some (⟨br, wr, [' '], t, [' ']⟩, post) := by
  have hshape : mkFenTag br wr t ++ post =
      ("[FEN".toList) ++ (' ' :: '"' :: (br ++ (fenMid ++ (wr ++ ' ' :: t :: ' ' ::
        (("KQkq - 0 1\"]\n".toList) ++ post))))) := by
    simp [mkFenTag]
  rw [hshape]
  rw [fenMatchAt_through br wr t (("Qkq - 0 1\"]\n".toList) ++ post)
    (("KQkq - 0 1\"]\n".toList) ++ post) hbrlen hbr hwrlen hwr ht rfl (by decide)]
  rw [expectLit_self_append]

theorem fenExec_canonical (pre post br wr : List Char) (t : Char)
    (hpre : '[' ∉ pre)
    (hbrlen : br.length = 8) (hbr : ∀ c ∈ br, nbrqkClass c = true)
    (hwrlen : wr.length = 8) (hwr : ∀ c ∈ wr, nbrqkUpperClass c = true)
    (ht : t = 'w' ∨ t = 'b') :
    fenExec (pre ++ (mkFenTag br wr t ++ post)) =
      some (pre, ⟨br, wr, [' '], t, [' ']⟩, post) := by
  rw [fenExec_append_no_bracket _ _ hpre]
  have hmatch2 := fenMatchAt_canonical post br wr t hbrlen hbr hwrlen hwr ht
  have hshape2 : mkFenTag br wr t ++ post =
      '[' :: ('F' :: 'E' :: 'N' :: (' ' :: '"' :: (br ++ (fenMid ++
        (wr ++ ' ' :: t :: ' ' :: (("KQkq - 0 1\"]\n".toList) ++ post)))))) := by
    simp [mkFenTag]
  have hexec1 : fenExec (mkFenTag br wr t ++ post) =
      some ([], ⟨br, wr, [' '], t, [' ']⟩, post) := by
    rw [hshape2, fenExec_cons, ← hshape2, hmatch2]
  rw [hexec1]
  simp

/-- `doConvertFen` on a mirror-symmetric initial-position tag whose black
back rank has its first two rooks at `i` and `i+1+k`: the `KQkq` field is
replaced by the file letters (right rook first, uppercase pair first). -/
theorem doConvertFen_family (pre post br : List Char) (t : Char) (i k : Nat)
    (hpre : '[' ∉ pre)
    (hbrlen : br.length = 8) (hbr : ∀ c ∈ br, nbrqkClass c = true)
    (ht : t = 'w' ∨ t = 'b')
    (hfirst : jsIndexOfAux 'r' br = some i)
    (hsecond : jsIndexOfAux 'r' (br.drop (i + 1)) = some k) :
    doConvertFen (pre ++ (mkFenTag br (listToUpper br) t ++ post)) =
      pre ++ (mkFenTagConverted br (listToUpper br) t
        (Char.ofNat (97 + i)) (Char.ofNat (97 + (i + 1 + k))) ++ post) ∧
    br.get? i = some 'r' ∧ br.get? (i + 1 + k) = some 'r' := by
  have hwr : ∀ c ∈ listToUpper br, nbrqkUpperClass c = true := by
    intro c hc
    obtain ⟨x, hx, hxc⟩ := List.mem_map.mp hc
    rw [← hxc]
    exact nbrqkClass_to_upper (hbr x hx)
  have hwrlen : (listToUpper br).length = 8 := by simp [listToUpper, hbrlen]
  have hget1 : br.get? i = some 'r' := jsIndexOfAux_some_get hfirst
  have hget2 : br.get? (i + 1 + k) = some 'r' := by
    rw [List.get?_eq_getElem?, ← List.getElem?_drop, ← List.get?_eq_getElem?]
    exact jsIndexOfAux_some_get hsecond
  refine ⟨?_, hget1, hget2⟩
  unfold doConvertFen
  rw [fenExec_canonical pre post br (listToUpper br) t hpre hbrlen hbr hwrlen hwr ht]
  dsimp only
  rw [if_pos rfl]
  have hidx1 : jsIndexOf br 'r' 0 = (i : Int) := by
    unfold jsIndexOf
    rw [List.drop_zero, hfirst]
    simp
  rw [hidx1]
  have h2 : ((i : Int) + 1).toNat = i + 1 := by omega
  rw [h2]
  have hidx2 : jsIndexOf br 'r' (i + 1) = ((i + 1 + k : Nat) : Int) := by
    unfold jsIndexOf
    rw [hsecond]
  rw [hidx2]
  have h3 : (97 + ((i + 1 + k : Nat) : Int)).toNat = 97 + (i + 1 + k) := by omega
  have h4 : (97 + (i : Int)).toNat = 97 + i := by omega
  rw [h3, h4]
  simp [mkFenTagConverted, fenG1, listToUpper]

theorem fileCharU_notWs {j : Nat} (hj : j < 8) :
    jsWs (jsToUpper (Char.ofNat (97 + j))) = false := by
  interval_cases j <;> decide

theorem fileCharU_ne_K {j : Nat} (hj : j < 8) :
    (('K' : Char) == jsToUpper (Char.ofNat (97 + j))) = false := by
  interval_cases j <;> decide

theorem fileCharU_ne_bracket {j : Nat} (hj : j < 8) :
    ¬ (('[' : Char) = jsToUpper (Char.ofNat (97 + j))) := by
  interval_cases j <;> decide

theorem fileChar_ne_bracket {j : Nat} (hj : j < 8) :
    ¬ (('[' : Char) = Char.ofNat (97 + j)) := by
  interval_cases j <;> decide

/-- C8 (amended): `doConvertFen` rewrites the `KQkq` castling field of a
matching, mirror-symmetric initial-position FEN tag into the files of the
first two rooks of the black back rank — right rook's file first, uppercase
pair for White then the lowercase pair for Black — whenever the rank contains
at least two rooks (with no earlier bracket in the text); when the tag does
not match or the ranks are not mirror-symmetric the input is returned
unchanged; and `convertFenIfChess960` applies the rewrite exactly when the
hidden PGN carries the Chess960 variant tag.  (On a matching mirror tag whose
rank lacks two rooks the function still rewrites, with backtick placeholders
— see the counterexample.) -/
theorem doConvertFen_claim :
    (∀ (pre post br : List Char) (t : Char) (i k : Nat), '[' ∉ pre →
       br.length = 8 → (∀ c ∈ br, nbrqkClass c = true) →
       (t = 'w' ∨ t = 'b') →
       jsIndexOfAux 'r' br = some i →
       jsIndexOfAux 'r' (br.drop (i + 1)) = some k →
       doConvertFen (pre ++ (mkFenTag br (listToUpper br) t ++ post)) =
         pre ++ (mkFenTagConverted br (listToUpper br) t
           (Char.ofNat (97 + i)) (Char.ofNat (97 + (i + 1 + k))) ++ post) ∧
       br.get? i = some 'r' ∧ br.get? (i + 1 + k) = some 'r') ∧
    (∀ s : List Char, fenExec s = none → doConvertFen s = s) ∧
    (∀ (s pre : List Char) (m : FenM) (post : List Char),
       fenExec s = some (pre, m, post) → ¬(listToUpper m.g2 = m.g3) →
       doConvertFen s = s) ∧
    (∀ hp op : List Char, chess960Test hp = false →
       convertFenIfChess960 hp op = (hp, op)) ∧
    (∀ hp op : List Char, chess960Test hp = true →
       convertFenIfChess960 hp op = (doConvertFen hp, doConvertFen op)) := by
  refine ⟨doConvertFen_family, ?_, ?_, ?_, ?_⟩
  · intro s h
    unfold doConvertFen
    rw [h]
  · intro s pre m post hexec hne
    unfold doConvertFen
    rw [hexec]
    dsimp only
    rw [if_neg hne]
  · intro hp op h
    unfold convertFenIfChess960
    rw [h]
    simp
  · intro hp op h
    unfold convertFenIfChess960
    rw [h]
    simp

/-- Witness for C8 at the standard back rank `rnbqkbnr` (rooks on files a
and h) and at a PGN without the Chess960 tag. -/
theorem doConvertFen_claim_witness :
    (doConvertFen ([] ++ (mkFenTag ("rnbqkbnr".toList)
        (listToUpper ("rnbqkbnr".toList)) 'w' ++ [])) =
      [] ++ (mkFenTagConverted ("rnbqkbnr".toList)
        (listToUpper ("rnbqkbnr".toList)) 'w'
        (Char.ofNat (97 + 0)) (Char.ofNat (97 + (0 + 1 + 6))) ++ []) ∧
      ("rnbqkbnr".toList).get? 0 = some 'r' ∧
      ("rnbqkbnr".toList).get? (0 + 1 + 6) = some 'r') ∧
    convertFenIfChess960 ("x".toList) ("y".toList) =
      (("x".toList), ("y".toList)) :=
  ⟨doConvertFen_claim.1 [] [] _ 'w' 0 6 (by decide) (by decide) (by decide)
    (by left; rfl) (by decide) (by decide),
   doConvertFen_claim.2.2.2.1 _ _ (by decide)⟩

/-- C8 counterexample: a mirror-symmetric matching tag whose back rank
contains no rook at all.  The claim says the field is rewritten into "the
files of the two rooks", but there are no rooks; the code still rewrites,
producing backtick characters (from `indexOf` = -1), which are not file
letters. -/
theorem doConvertFen_rookless_counterexample :
    ('r' ∉ ("nnnnnnnn".toList)) ∧
    doConvertFen
        ("[FEN \"nnnnnnnn/pppppppp/8/8/8/8/PPPPPPPP/NNNNNNNN w KQkq - 0 1\"]\n".toList) =
      ("[FEN \"nnnnnnnn/pppppppp/8/8/8/8/PPPPPPPP/NNNNNNNN w ```` - 0 1\"]\n".toList) ∧
    ("[FEN \"nnnnnnnn/pppppppp/8/8/8/8/PPPPPPPP/NNNNNNNN w ```` - 0 1\"]\n".toList ≠
      "[FEN \"nnnnnnnn/pppppppp/8/8/8/8/PPPPPPPP/NNNNNNNN w KQkq - 0 1\"]\n".toList) := by
  refine ⟨by decide, by decide, by decide⟩

/-- C10 (amended): `doConvertFen` is idempotent on inputs it leaves unchanged
and on inputs with a single bracketed tag — the converted FEN tag no longer
contains the literal `KQkq` field, so a second application finds no match.
With a second matching FEN tag after the first, however, a second application
rewrites that one too (see the counterexample). -/
theorem doConvertFen_idem_claim :
    (∀ s : List Char, doConvertFen s = s →
       doConvertFen (doConvertFen s) = doConvertFen s) ∧
    (∀ (pre post br : List Char) (t : Char) (i k : Nat),
       '[' ∉ pre → '[' ∉ post →
       br.length = 8 → (∀ c ∈ br, nbrqkClass c = true) →
       (t = 'w' ∨ t = 'b') →
       jsIndexOfAux 'r' br = some i →
       jsIndexOfAux 'r' (br.drop (i + 1)) = some k →
       doConvertFen (doConvertFen (pre ++ (mkFenTag br (listToUpper br) t ++ post))) =
         doConvertFen (pre ++ (mkFenTag br (listToUpper br) t ++ post))) := by
  constructor
  · intro s h
    rw [h]
    exact h
  · intro pre post br t i k hpre hpost hbrlen hbr ht h1 h2
    obtain ⟨hout, hg1, hg2⟩ :=
      doConvertFen_family pre post br t i k hpre hbrlen hbr ht h1 h2
    rw [hout]
    have hi8 : i < 8 := by
      have := get?_some_lt hg1
      omega
    have hj8 : i + 1 + k < 8 := by
      have := get?_some_lt hg2
      omega
    have hwr : ∀ c ∈ listToUpper br, nbrqkUpperClass c = true := by
      intro c hc
      obtain ⟨x, hx, hxc⟩ := List.mem_map.mp hc
      rw [← hxc]
      exact nbrqkClass_to_upper (hbr x hx)
    have hwrlen : (listToUpper br).length = 8 := by simp [listToUpper, hbrlen]
    have hnofen : fenMatchAt (mkFenTagConverted br (listToUpper br) t
        (Char.ofNat (97 + i)) (Char.ofNat (97 + (i + 1 + k))) ++ post) = none := by
      have hshape : mkFenTagConverted br (listToUpper br) t
          (Char.ofNat (97 + i)) (Char.ofNat (97 + (i + 1 + k))) ++ post =
          ("[FEN".toList) ++ (' ' :: '"' :: (br ++ (fenMid ++ (listToUpper br ++
            ' ' :: t :: ' ' ::
            (jsToUpper (Char.ofNat (97 + (i + 1 + k))) ::
              jsToUpper (Char.ofNat (97 + i)) ::
              Char.ofNat (97 + (i + 1 + k)) :: Char.ofNat (97 + i) ::
              ((" - 0 1\"]\n".toList) ++ post)))))) := by
        simp [mkFenTagConverted]
      rw [hshape]
      rw [fenMatchAt_through br (listToUpper br) t
        (jsToUpper (Char.ofNat (97 + i)) ::
          Char.ofNat (97 + (i + 1 + k)) :: Char.ofNat (97 + i) ::
          ((" - 0 1\"]\n".toList) ++ post))
        (jsToUpper (Char.ofNat (97 + (i + 1 + k))) ::
          jsToUpper (Char.ofNat (97 + i)) ::
          Char.ofNat (97 + (i + 1 + k)) :: Char.ofNat (97 + i) ::
          ((" - 0 1\"]\n".toList) ++ post))
        hbrlen hbr hwrlen hwr ht rfl (fileCharU_notWs hj8)]
      rw [show ("KQkq - 0 1\"]\n".toList) = 'K' :: ("Qkq - 0 1\"]\n".toList) from rfl]
      rw [expectLit_head_ne _ _ (fileCharU_ne_K hj8)]
    have hCT : ('[' : Char) ∉ ('F' :: 'E' :: 'N' :: ' ' :: '"' ::
        (br ++ (fenMid ++ (listToUpper br ++ ' ' :: t :: ' ' ::
          (jsToUpper (Char.ofNat (97 + (i + 1 + k))) ::
            jsToUpper (Char.ofNat (97 + i)) ::
            Char.ofNat (97 + (i + 1 + k)) :: Char.ofNat (97 + i) ::
            ((" - 0 1\"]\n".toList) ++ post)))))) := by
      intro hm
      simp only [List.mem_cons, List.mem_append] at hm
      rcases hm with h | h | h | h | h | h | h | h | h | h | h | h | h | h | h | h | h
      · exact absurd h (by decide)
      · exact absurd h (by decide)
      · exact absurd h (by decide)
      · exact absurd h (by decide)
      · exact absurd h (by decide)
      · exact absurd (hbr _ h) (by decide)
      · exact absurd h (by decide)
      · exact absurd (hwr _ h) (by decide)
      · exact absurd h (by decide)
      · rcases ht with h2 | h2 <;> subst h2 <;> exact absurd h (by decide)
      · exact absurd h (by decide)
      · exact fileCharU_ne_bracket hj8 h
      · exact fileCharU_ne_bracket hi8 h
      · exact fileChar_ne_bracket hj8 h
      · exact fileChar_ne_bracket hi8 h
      · exact absurd h (by decide)
      · exact hpost h
    have hexec_conv : fenExec (mkFenTagConverted br (listToUpper br) t
        (Char.ofNat (97 + i)) (Char.ofNat (97 + (i + 1 + k))) ++ post) = none := by
      have hshape2 : mkFenTagConverted br (listToUpper br) t
          (Char.ofNat (97 + i)) (Char.ofNat (97 + (i + 1 + k))) ++ post =
          '[' :: ('F' :: 'E' :: 'N' :: ' ' :: '"' ::
            (br ++ (fenMid ++ (listToUpper br ++ ' ' :: t :: ' ' ::
              (jsToUpper (Char.ofNat (97 + (i + 1 + k))) ::
                jsToUpper (Char.ofNat (97 + i)) ::
                Char.ofNat (97 + (i + 1 + k)) :: Char.ofNat (97 + i) ::
                ((" - 0 1\"]\n".toList) ++ post)))))) := by
        simp [mkFenTagConverted]
      rw [hshape2, fenExec_cons, ← hshape2, hnofen]
      dsimp only
      rw [fenExec_none_of_no_bracket _ hCT]
    have hnoexec : fenExec (pre ++ (mkFenTagConverted br (listToUpper br) t
        (Char.ofNat (97 + i)) (Char.ofNat (97 + (i + 1 + k))) ++ post)) = none := by
      rw [fenExec_append_no_bracket _ _ hpre, hexec_conv]
    unfold doConvertFen
    rw [hnoexec]

/-- Witness for C10 at the standard back rank with nothing around the tag. -/
theorem doConvertFen_idem_claim_witness :
    doConvertFen (doConvertFen ([] ++ (mkFenTag ("rnbqkbnr".toList)
        (listToUpper ("rnbqkbnr".toList)) 'w' ++ []))) =
      doConvertFen ([] ++ (mkFenTag ("rnbqkbnr".toList)
        (listToUpper ("rnbqkbnr".toList)) 'w' ++ [])) :=
  doConvertFen_idem_claim.2 [] [] _ 'w' 0 6 (by decide) (by decide) (by decide)
    (by decide) (by left; rfl) (by decide) (by decide)

/-- C10 counterexample: on an input with two matching FEN tags the first
application rewrites only the first tag, and a second application then
rewrites the second, so `doConvertFen` is not idempotent on every string. -/
theorem doConvertFen_not_idempotent :
    doConvertFen (doConvertFen
        (("[FEN \"rnbqkbnr/pppppppp/8/8/8/8/PPPPPPPP/RNBQKBNR w KQkq - 0 1\"]\n" ++
          "[FEN \"rnbqkbnr/pppppppp/8/8/8/8/PPPPPPPP/RNBQKBNR w KQkq - 0 1\"]\n").toList)) ≠
      doConvertFen
        (("[FEN \"rnbqkbnr/pppppppp/8/8/8/8/PPPPPPPP/RNBQKBNR w KQkq - 0 1\"]\n" ++
          "[FEN \"rnbqkbnr/pppppppp/8/8/8/8/PPPPPPPP/RNBQKBNR w KQkq - 0 1\"]\n").toList) := by
  decide

end HideElo
